import Mathlib

/-!
Shallow embedding of the core of the `Raytracing-Rs` renderer
(`src/shape.rs`, `src/intersection.rs`, `src/bvh.rs`, `src/texture.rs`,
`src/material.rs`, `src/reflect.rs`, `src/main.rs`).

Modelling conventions:
* `f32` scalars are idealized as real numbers (`ℝ`); all field arithmetic is
  exact.
* The AABB slab test relies on IEEE-754 infinities and the NaN produced by
  `0.0 * INFINITY`, and boxes themselves may carry infinite corners
  (`Rect::infinite`, plane bounding boxes).  Box corner coordinates are
  therefore modelled by `Flt` (a real extended with `±∞`), and the slab-test
  intermediates by `FltN` (additionally extended with `nan`), with `min`,
  `max`, multiplication and comparison following Rust/IEEE-754 semantics
  (`f32::min`/`f32::max` return the other operand when one argument is NaN;
  every comparison with NaN is false; `0 * ∞ = NaN`; `1.0 / 0.0 = ∞`).
* Rust panics (`panic!("Empty vector")` in `Bvh::construct`, `unwrap` on a
  malformed tree in `Bvh::intersects`) are modelled as `Option` failure.
* The thread-local RNG draws (`gen_range(0.0..1.0)` / `random()`) are
  supplied as explicit oracle arguments (`Rnd`).
-/

open scoped Classical

noncomputable section

namespace Rt

/-- 3-component real vector, modelling `glam::Vec3`. -/
structure V3 where
  x : ℝ
  y : ℝ
  z : ℝ
deriving DecidableEq

instance : Add V3 := ⟨fun a b => ⟨a.x + b.x, a.y + b.y, a.z + b.z⟩⟩
instance : Sub V3 := ⟨fun a b => ⟨a.x - b.x, a.y - b.y, a.z - b.z⟩⟩
instance : Neg V3 := ⟨fun a => ⟨-a.x, -a.y, -a.z⟩⟩
/-- `Vec3 * f32` (componentwise scaling). -/
instance : HMul V3 ℝ V3 := ⟨fun v t => ⟨v.x * t, v.y * t, v.z * t⟩⟩

@[simp] theorem V3.add_x (a b : V3) : (a + b).x = a.x + b.x := rfl
@[simp] theorem V3.add_y (a b : V3) : (a + b).y = a.y + b.y := rfl
@[simp] theorem V3.add_z (a b : V3) : (a + b).z = a.z + b.z := rfl
@[simp] theorem V3.sub_x (a b : V3) : (a - b).x = a.x - b.x := rfl
@[simp] theorem V3.sub_y (a b : V3) : (a - b).y = a.y - b.y := rfl
@[simp] theorem V3.sub_z (a b : V3) : (a - b).z = a.z - b.z := rfl
@[simp] theorem V3.neg_x (a : V3) : (-a).x = -a.x := rfl
@[simp] theorem V3.neg_y (a : V3) : (-a).y = -a.y := rfl
@[simp] theorem V3.neg_z (a : V3) : (-a).z = -a.z := rfl
@[simp] theorem V3.smul_x (a : V3) (t : ℝ) : (a * t).x = a.x * t := rfl
@[simp] theorem V3.smul_y (a : V3) (t : ℝ) : (a * t).y = a.y * t := rfl
@[simp] theorem V3.smul_z (a : V3) (t : ℝ) : (a * t).z = a.z * t := rfl

@[simp] theorem V3.mk_add (ax ay az bx bY bz : ℝ) :
    (⟨ax, ay, az⟩ + ⟨bx, bY, bz⟩ : V3) = ⟨ax + bx, ay + bY, az + bz⟩ := rfl
@[simp] theorem V3.mk_sub (ax ay az bx bY bz : ℝ) :
    (⟨ax, ay, az⟩ - ⟨bx, bY, bz⟩ : V3) = ⟨ax - bx, ay - bY, az - bz⟩ := rfl
@[simp] theorem V3.mk_neg (ax ay az : ℝ) :
    (-(⟨ax, ay, az⟩ : V3)) = ⟨-ax, -ay, -az⟩ := rfl
@[simp] theorem V3.mk_smul (ax ay az t : ℝ) :
    ((⟨ax, ay, az⟩ : V3) * t) = ⟨ax * t, ay * t, az * t⟩ := rfl

/-- `Vec3::dot`. -/
def V3.dot (a b : V3) : ℝ := a.x * b.x + a.y * b.y + a.z * b.z

/-- `Vec3::cross`. -/
def V3.cross (a b : V3) : V3 :=
  ⟨a.y * b.z - a.z * b.y, a.z * b.x - a.x * b.z, a.x * b.y - a.y * b.x⟩

/-- `Vec3::length`. -/
def V3.length (v : V3) : ℝ := Real.sqrt (v.dot v)

/-- `Vec3::normalize` (`self / length`); over ℝ a zero vector maps to zero. -/
def V3.normalize (v : V3) : V3 := v * (v.length)⁻¹

/-- `Vec3::distance_squared`. -/
def V3.distance_squared (a b : V3) : ℝ := (a - b).dot (a - b)

/-- `Vec3::splat`. -/
def V3.splat (c : ℝ) : V3 := ⟨c, c, c⟩

/-- The swizzle `Vec3Swizzles::xzy`. -/
def V3.xzy (v : V3) : V3 := ⟨v.x, v.z, v.y⟩

/-- 2-component real vector, modelling `glam::Vec2`. -/
structure V2 where
  x : ℝ
  y : ℝ
deriving DecidableEq

instance : Add V2 := ⟨fun a b => ⟨a.x + b.x, a.y + b.y⟩⟩
/-- `f32 * Vec2`. -/
instance : SMul ℝ V2 := ⟨fun t v => ⟨t * v.x, t * v.y⟩⟩

@[simp] theorem V2.vadd_x (a b : V2) : (a + b).x = a.x + b.x := rfl
@[simp] theorem V2.vadd_y (a b : V2) : (a + b).y = a.y + b.y := rfl
@[simp] theorem V2.vsmul_x (t : ℝ) (a : V2) : (t • a).x = t * a.x := rfl
@[simp] theorem V2.vsmul_y (t : ℝ) (a : V2) : (t • a).y = t * a.y := rfl

/-- Linear RGB color (`material::Color`). -/
structure Color where
  r : ℝ
  g : ℝ
  b : ℝ
deriving DecidableEq

instance : Add Color := ⟨fun a b => ⟨a.r + b.r, a.g + b.g, a.b + b.b⟩⟩
instance : Sub Color := ⟨fun a b => ⟨a.r - b.r, a.g - b.g, a.b - b.b⟩⟩
/-- Componentwise `Mul<Color> for Color`. -/
instance : Mul Color := ⟨fun a b => ⟨a.r * b.r, a.g * b.g, a.b * b.b⟩⟩
/-- Derived `Mul<f32>` (from `derive_more`). -/
instance : HMul Color ℝ Color := ⟨fun c t => ⟨c.r * t, c.g * t, c.b * t⟩⟩

@[simp] theorem Color.add_r (a b : Color) : (a + b).r = a.r + b.r := rfl
@[simp] theorem Color.add_g (a b : Color) : (a + b).g = a.g + b.g := rfl
@[simp] theorem Color.add_b (a b : Color) : (a + b).b = a.b + b.b := rfl
@[simp] theorem Color.sub_r (a b : Color) : (a - b).r = a.r - b.r := rfl
@[simp] theorem Color.sub_g (a b : Color) : (a - b).g = a.g - b.g := rfl
@[simp] theorem Color.sub_b (a b : Color) : (a - b).b = a.b - b.b := rfl
@[simp] theorem Color.mul_r (a b : Color) : (a * b).r = a.r * b.r := rfl
@[simp] theorem Color.mul_g (a b : Color) : (a * b).g = a.g * b.g := rfl
@[simp] theorem Color.mul_b (a b : Color) : (a * b).b = a.b * b.b := rfl
@[simp] theorem Color.smul_r (a : Color) (t : ℝ) : (a * t).r = a.r * t := rfl
@[simp] theorem Color.smul_g (a : Color) (t : ℝ) : (a * t).g = a.g * t := rfl
@[simp] theorem Color.smul_b (a : Color) (t : ℝ) : (a * t).b = a.b * t := rfl

@[simp] theorem Color.mkc_add (ar ag ab br bg bb : ℝ) :
    (⟨ar, ag, ab⟩ + ⟨br, bg, bb⟩ : Color) = ⟨ar + br, ag + bg, ab + bb⟩ := rfl
@[simp] theorem Color.mkc_sub (ar ag ab br bg bb : ℝ) :
    (⟨ar, ag, ab⟩ - ⟨br, bg, bb⟩ : Color) = ⟨ar - br, ag - bg, ab - bb⟩ := rfl
@[simp] theorem Color.mk_mul (ar ag ab br bg bb : ℝ) :
    (⟨ar, ag, ab⟩ * ⟨br, bg, bb⟩ : Color) = ⟨ar * br, ag * bg, ab * bb⟩ := rfl
@[simp] theorem Color.mkc_smul (ar ag ab t : ℝ) :
    ((⟨ar, ag, ab⟩ : Color) * t) = ⟨ar * t, ag * t, ab * t⟩ := rfl

/-- `Color::splat`. -/
def Color.splat (c : ℝ) : Color := ⟨c, c, c⟩

/-- `Color::WHITE`. -/
def Color.WHITE : Color := Color.splat 1

/-- `Color::BLACK`. -/
def Color.BLACK : Color := Color.splat 0

/-- The `lerp` crate's `Lerp::lerp`: `self + (other - self) * t`. -/
def Color.lerp (a b : Color) (t : ℝ) : Color := a + (b - a) * t

/-- `f32::signum` on non-NaN input (`signum (+0.0) = 1.0`; `-0.0` is not
modelled since ℝ has a single zero). -/
def signum (x : ℝ) : ℝ := if x < 0 then -1 else 1

/-- Idealized `f32` value that may be `±∞` but not NaN: the type of bounding
box corner coordinates. -/
inductive Flt where
  | fin (x : ℝ)
  | pinf
  | ninf
deriving DecidableEq

/-- `f32::min` on non-NaN arguments. -/
def Flt.min : Flt → Flt → Flt
  | .ninf, _ => .ninf
  | _, .ninf => .ninf
  | .pinf, b => b
  | a, .pinf => a
  | .fin a, .fin b => .fin (Min.min a b)

/-- `f32::max` on non-NaN arguments. -/
def Flt.max : Flt → Flt → Flt
  | .pinf, _ => .pinf
  | _, .pinf => .pinf
  | .ninf, b => b
  | a, .ninf => a
  | .fin a, .fin b => .fin (Max.max a b)

/-- The `<=` order on non-NaN floats. -/
def Flt.Le : Flt → Flt → Prop
  | .ninf, _ => True
  | _, .pinf => True
  | .fin a, .fin b => a ≤ b
  | .pinf, _ => False
  | .fin _, .ninf => False

/-- Idealized `f32` value that may be `±∞` or NaN: the type of the slab-test
intermediates in `Rect::intersects`. -/
inductive FltN where
  | fin (x : ℝ)
  | pinf
  | ninf
  | nan
deriving DecidableEq

/-- IEEE-754 multiplication (`0 * ∞ = NaN`, NaN is absorbing). -/
def FltN.mul : FltN → FltN → FltN
  | .nan, _ => .nan
  | _, .nan => .nan
  | .fin a, .fin b => .fin (a * b)
  | .fin a, .pinf => if 0 < a then .pinf else if a < 0 then .ninf else .nan
  | .fin a, .ninf => if 0 < a then .ninf else if a < 0 then .pinf else .nan
  | .pinf, .fin b => if 0 < b then .pinf else if b < 0 then .ninf else .nan
  | .ninf, .fin b => if 0 < b then .ninf else if b < 0 then .pinf else .nan
  | .pinf, .pinf => .pinf
  | .pinf, .ninf => .ninf
  | .ninf, .pinf => .ninf
  | .ninf, .ninf => .pinf

/-- Rust `f32::min`: if one argument is NaN, the other argument is returned. -/
def FltN.minR : FltN → FltN → FltN
  | .nan, b => b
  | a, .nan => a
  | .ninf, _ => .ninf
  | _, .ninf => .ninf
  | .pinf, b => b
  | a, .pinf => a
  | .fin a, .fin b => .fin (Min.min a b)

/-- Rust `f32::max`: if one argument is NaN, the other argument is returned. -/
def FltN.maxR : FltN → FltN → FltN
  | .nan, b => b
  | a, .nan => a
  | .pinf, _ => .pinf
  | _, .pinf => .pinf
  | .ninf, b => b
  | a, .ninf => a
  | .fin a, .fin b => .fin (Max.max a b)

/-- IEEE `<=`: every comparison involving NaN is false. -/
def FltN.Le : FltN → FltN → Prop
  | .nan, _ => False
  | _, .nan => False
  | .ninf, _ => True
  | _, .pinf => True
  | .fin a, .fin b => a ≤ b
  | .pinf, _ => False
  | .fin _, .ninf => False

/-- Box coordinate minus a finite ray coordinate (`self.min.x - ray.start.x`). -/
def Flt.subR : Flt → ℝ → FltN
  | .fin a, b => .fin (a - b)
  | .pinf, _ => .pinf
  | .ninf, _ => .ninf

/-- `Vec3::recip` componentwise: IEEE `1.0 / 0.0 = ∞` (the real `0` is
idealized as `+0.0`). -/
def frecip (x : ℝ) : FltN := if x = 0 then .pinf else .fin x⁻¹

/-- Componentwise extended-float 3-vector (bounding box corner). -/
structure F3 where
  x : Flt
  y : Flt
  z : Flt
deriving DecidableEq

/-- Embed a finite vector as a box corner. -/
def F3.ofV3 (v : V3) : F3 := ⟨.fin v.x, .fin v.y, .fin v.z⟩

/-- `shape::Rect`, an axis-aligned box given by two corners. -/
structure Rect where
  min : F3
  max : F3
deriving DecidableEq

/-- `Rect::infinite`. -/
def Rect.infinite : Rect := ⟨⟨.ninf, .ninf, .ninf⟩, ⟨.pinf, .pinf, .pinf⟩⟩

/-- `Rect::order_components` (both assignments read the original `clone`). -/
def Rect.order_components (r : Rect) : Rect :=
  ⟨⟨r.min.x.min r.max.x, r.min.y.min r.max.y, r.min.z.min r.max.z⟩,
   ⟨r.max.x.max r.min.x, r.max.y.max r.min.y, r.max.z.max r.min.z⟩⟩

/-- `shape::Ray`. -/
structure Ray where
  start : V3
  dir : V3

/-- `Ray::offset`: nudge the origin by `0.01 * dir`. -/
def Ray.offset (r : Ray) : Ray := ⟨r.start + r.dir * (0.01 : ℝ), r.dir⟩

/-- `impl Intersection<Ray> for Rect`: the slab test, with IEEE-754
infinity/NaN propagation. -/
def Rect.intersectsRay (r : Rect) (ray : Ray) : Prop :=
  let inv_x := frecip ray.dir.x
  let inv_y := frecip ray.dir.y
  let inv_z := frecip ray.dir.z
  let tx1 := (r.min.x.subR ray.start.x).mul inv_x
  let tx2 := (r.max.x.subR ray.start.x).mul inv_x
  let tmin0 := tx1.minR tx2
  let tmax0 := tx1.maxR tx2
  let ty1 := (r.min.y.subR ray.start.y).mul inv_y
  let ty2 := (r.max.y.subR ray.start.y).mul inv_y
  let tmin1 := tmin0.maxR (ty1.minR ty2)
  let tmax1 := tmax0.minR (ty1.maxR ty2)
  let tz1 := (r.min.z.subR ray.start.z).mul inv_z
  let tz2 := (r.max.z.subR ray.start.z).mul inv_z
  let tmin2 := tmin1.maxR (tz1.minR tz2)
  let tmax2 := tmax1.minR (tz1.maxR tz2)
  FltN.Le (tmin2.maxR (.fin 0)) tmax2

/-- A point lies (componentwise, inclusively) inside a box.  This is the
specification-side membership predicate used to state geometric claims. -/
def Rect.containsPoint (r : Rect) (p : V3) : Prop :=
  r.min.x.Le (.fin p.x) ∧ Flt.Le (.fin p.x) r.max.x ∧
  r.min.y.Le (.fin p.y) ∧ Flt.Le (.fin p.y) r.max.y ∧
  r.min.z.Le (.fin p.z) ∧ Flt.Le (.fin p.z) r.max.z

/-- A box contains another box componentwise (specification-side). -/
def Rect.containsRect (outer inner : Rect) : Prop :=
  outer.min.x.Le inner.min.x ∧ inner.max.x.Le outer.max.x ∧
  outer.min.y.Le inner.min.y ∧ inner.max.y.Le outer.max.y ∧
  outer.min.z.Le inner.min.z ∧ inner.max.z.Le outer.max.z

/-- `texture::TextureWrapping`. -/
inductive TextureWrapping where
  | Repeat
  | MirroredRepeat
  | ClampToEdge
deriving DecidableEq

/-- One 8-bit RGB texel (`image::Rgb<u8>`). -/
structure Pix where
  r : Fin 256
  g : Fin 256
  b : Fin 256

/-- `texture::Texture`: a decoded image plus a wrap mode.  The pixel buffer is
modelled as a total function (`get_pixel` is only ever called in range). -/
structure Texture where
  width : ℕ
  height : ℕ
  data : ℕ → ℕ → Pix
  wrapping : TextureWrapping

/-- `Texture::set_wrapping`. -/
def Texture.set_wrapping (t : Texture) (w : TextureWrapping) : Texture :=
  { t with wrapping := w }

/-- `Color::from_u8`. -/
def Color.from_u8 (p : Pix) : Color :=
  ⟨(p.r : ℕ) / 255, (p.g : ℕ) / 255, (p.b : ℕ) / 255⟩

/-- The sawtooth used for `TextureWrapping::Repeat`:
`(x + 0.5) - (0.5 + (x + 0.5)).floor() + 0.5`. -/
def sawtooth (x : ℝ) : ℝ := (x + 0.5) - ⌊0.5 + (x + 0.5)⌋ + 0.5

/-- The triangle wave used for `TextureWrapping::MirroredRepeat`:
`2.0 * (x/2.0 - (x/2.0 + 0.5).floor()).abs()`. -/
def triangleWave (x : ℝ) : ℝ := 2 * |x / 2 - ⌊x / 2 + 0.5⌋|

/-- `Texture::sample`: wrap, clamp, map to pixel space and bilinearly
interpolate the four surrounding texels. -/
def Texture.sample (t : Texture) (u v : ℝ) : Color :=
  let wrapped : ℝ × ℝ :=
    match t.wrapping with
    | .Repeat => (sawtooth u, sawtooth v)
    | .MirroredRepeat => (triangleWave u, triangleWave v)
    | .ClampToEdge => (u, v)
  let uc := Min.min (Max.max wrapped.1 0) 1
  let vc := Min.min (Max.max wrapped.2 0) 1
  let x := uc * ((t.width - 1 : ℕ) : ℝ)
  let y := (1 - vc) * ((t.height - 1 : ℕ) : ℝ)
  let fx : ℝ := ⌊x⌋
  let cx : ℝ := ⌈x⌉
  let fy : ℝ := ⌊y⌋
  let cy : ℝ := ⌈y⌉
  let nw := Color.from_u8 (t.data ⌊x⌋.toNat ⌊y⌋.toNat)
  let ne := Color.from_u8 (t.data ⌈x⌉.toNat ⌊y⌋.toNat)
  let sw := Color.from_u8 (t.data ⌊x⌋.toNat ⌈y⌉.toNat)
  let se := Color.from_u8 (t.data ⌈x⌉.toNat ⌈y⌉.toNat)
  let _ := cx
  let _ := cy
  let north := nw.lerp ne (x - fx)
  let south := sw.lerp se (x - fx)
  north.lerp south (y - fy)

/-- `material::MaterialKind`. -/
inductive MaterialKind where
  | Lambertian (albedo : Color)
  | Metal (albedo : Color)
  | Transparent (refraction_index : ℝ)

/-- `material::Material`. -/
structure Material where
  texture : Option Texture
  normal_map : Option Texture
  kind : MaterialKind

/-- `Material::new_lambertian`. -/
def Material.new_lambertian (albedo : Color) : Material :=
  ⟨none, none, .Lambertian albedo⟩

/-- `Material::new_metal`. -/
def Material.new_metal (albedo : Color) : Material :=
  ⟨none, none, .Metal albedo⟩

/-- `Material::new_transparent`. -/
def Material.new_transparent (refraction_index : ℝ) : Material :=
  ⟨none, none, .Transparent refraction_index⟩

/-- `shape::Sphere` (signed radius). -/
structure Sphere where
  pos : V3
  radius : ℝ
  material : Material

/-- `shape::Plane`. -/
structure Plane where
  pos : V3
  normal : V3
  material : Material

/-- `shape::Vertex`. -/
structure Vertex where
  pos : V3
  normal : V3
  tex : V2

/-- `shape::Triangle` with its precomputed fields stored as data (the claims
quantify over the stored fields, as the Rust struct does). -/
structure Triangle where
  p0 : Vertex
  p1 : Vertex
  p2 : Vertex
  material : Material
  normal : V3
  edge1 : V3
  edge2 : V3
  edge3 : V3

/-- The dynamic `dyn Traceable` shapes of the scene (`Sphere`, `Plane`,
`Triangle` are the only `Traceable` implementors). -/
inductive Shape where
  | sphere (s : Sphere)
  | plane (p : Plane)
  | tri (t : Triangle)

/-- `Shape::position` (dispatch over the three implementors). -/
def Shape.position : Shape → V3
  | .sphere s => s.pos
  | .plane p => p.pos
  | .tri t => (t.p0.pos + t.p1.pos + t.p2.pos) * (3 : ℝ)⁻¹

/-- `Sphere::bounding_box`. -/
def Sphere.bounding_box (s : Sphere) : Rect :=
  (Rect.mk (F3.ofV3 (s.pos - V3.splat s.radius))
           (F3.ofV3 (s.pos + V3.splat s.radius))).order_components

/-- `Plane::bounding_box`. -/
def Plane.bounding_box (p : Plane) : Rect :=
  if |p.normal.y| = 1 then
    ⟨⟨.ninf, .fin p.pos.y, .ninf⟩, ⟨.pinf, .fin p.pos.y, .pinf⟩⟩
  else Rect.infinite

/-- `Triangle::bounding_box`. -/
def Triangle.bounding_box (t : Triangle) : Rect :=
  ⟨F3.ofV3 ⟨Min.min t.p0.pos.x (Min.min t.p1.pos.x t.p2.pos.x),
            Min.min t.p0.pos.y (Min.min t.p1.pos.y t.p2.pos.y),
            Min.min t.p0.pos.z (Min.min t.p1.pos.z t.p2.pos.z)⟩,
   F3.ofV3 ⟨Max.max t.p0.pos.x (Max.max t.p1.pos.x t.p2.pos.x),
            Max.max t.p0.pos.y (Max.max t.p1.pos.y t.p2.pos.y),
            Max.max t.p0.pos.z (Max.max t.p1.pos.z t.p2.pos.z)⟩⟩

/-- `Shape::bounding_box` dispatch. -/
def Shape.bounding_box : Shape → Rect
  | .sphere s => s.bounding_box
  | .plane p => p.bounding_box
  | .tri t => t.bounding_box

/-- `Shape::material` dispatch. -/
def Shape.material : Shape → Material
  | .sphere s => s.material
  | .plane p => p.material
  | .tri t => t.material

/-- `intersection::Inter`: the hit record (the shape reference is modelled by
value). -/
structure Inter where
  point : V3
  normal : V3
  front : Bool
  shape : Shape

/-- `Sphere::ray_intersection` (`impl Traceable for Sphere`). -/
def Sphere.ray_intersection (s : Sphere) (ray : Ray) : Option Inter :=
  let to_center := s.pos - ray.start
  let b := to_center.dot ray.dir
  let c := to_center.dot to_center - s.radius * s.radius
  let discriminant := b * b - c
  if discriminant < 0 then none
  else
    let discr_sqrt := Real.sqrt discriminant
    let tfst := b - discr_sqrt
    let t := if tfst < 0 then b + discr_sqrt else tfst
    if t < 0 then none
    else
      let point := ray.start + ray.dir * t
      let dist := (point - s.pos).normalize
      let sgn := signum s.radius
      if s.pos.distance_squared ray.start * sgn ≤ s.radius * s.radius * sgn then
        some ⟨point, -dist, false, .sphere s⟩
      else
        some ⟨point, dist, true, .sphere s⟩

/-- `Plane::ray_intersection` (`impl Traceable for Plane`);
`denom.is_zero()` is the exact `== 0.0` test of `num::Zero`. -/
def Plane.ray_intersection (p : Plane) (ray : Ray) : Option Inter :=
  let denom := p.normal.dot ray.dir
  if denom = 0 then none
  else
    let dist := p.pos - ray.start
    let t := p.normal.dot dist / denom
    if 0 ≤ t then
      some ⟨ray.start + ray.dir * t, p.normal, false, .plane p⟩
    else none

/-- `Triangle::ray_intersection` (Möller–Trumbore);
`a.is_zero()` is the exact `== 0.0` test. -/
def Triangle.ray_intersection (tr : Triangle) (ray : Ray) : Option Inter :=
  let h := ray.dir.cross tr.edge2
  let a := tr.edge1.dot h
  if a = 0 then none
  else
    let f := a⁻¹
    let s := ray.start - tr.p0.pos
    let u := f * s.dot h
    if ¬(0 ≤ u ∧ u ≤ 1) then none
    else
      let q := s.cross tr.edge1
      let v := f * ray.dir.dot q
      if v < 0 ∨ 1 < u + v then none
      else
        let t := f * tr.edge2.dot q
        let normal := if ray.dir.dot tr.normal < 0 then tr.normal else -tr.normal
        if 0 < t then
          some ⟨ray.start + ray.dir * t, normal, true, .tri tr⟩
        else none

/-- `Traceable::ray_intersection` dispatch. -/
def Shape.ray_intersection : Shape → Ray → Option Inter
  | .sphere s, ray => s.ray_intersection ray
  | .plane p, ray => p.ray_intersection ray
  | .tri t, ray => t.ray_intersection ray

/-- Two-argument arctangent, `f32::atan2(self = y, other = x)`. -/
def atan2 (y x : ℝ) : ℝ :=
  if 0 < x then Real.arctan (y / x)
  else if x < 0 then
    (if 0 ≤ y then Real.arctan (y / x) + Real.pi else Real.arctan (y / x) - Real.pi)
  else
    (if 0 < y then Real.pi / 2 else if y < 0 then -(Real.pi / 2) else 0)

/-- Truncation toward zero (the rounding of Rust's `%` on floats). -/
def rtrunc (x : ℝ) : ℝ := if 0 ≤ x then ⌊x⌋ else ⌈x⌉

/-- Rust `%` on floats: `a - b * trunc(a / b)`. -/
def fmod (a b : ℝ) : ℝ := a - b * rtrunc (a / b)

/-- `Sphere::sample` (UV parameterization). -/
def Sphere.sampleUV (s : Sphere) (p : V3) : V2 :=
  let dist := p - s.pos
  let u := fmod (-(atan2 dist.x dist.z) / (2 * Real.pi) + 0.5 + 0.3) 1
  let v := dist.y / s.radius / 2 + 0.5
  ⟨u, v⟩

/-- `Plane::sample`. -/
def Plane.sampleUV (_p : Plane) (p : V3) : V2 := ⟨p.x, p.z⟩

/-- `Triangle::barycentric_weigths`. -/
def Triangle.barycentric_weigths (t : Triangle) (p : V3) : ℝ × ℝ × ℝ :=
  let div := -t.edge3.y * (-t.edge2.x) + t.edge3.x * (-t.edge2.y)
  let w0 := (-t.edge3.y * (p.x - t.p2.pos.x) + t.edge3.x * (p.y - t.p2.pos.y)) / div
  let w1 := (t.edge2.y * (p.x - t.p2.pos.x) + -t.edge2.x * (p.y - t.p2.pos.y)) / div
  (w0, w1, 1 - w0 - w1)

/-- `Triangle::sample`. -/
def Triangle.sampleUV (t : Triangle) (p : V3) : V2 :=
  let w := t.barycentric_weigths p
  let out : V2 := w.1 • t.p0.tex + w.2.1 • t.p1.tex + w.2.2 • t.p2.tex
  ⟨out.x, out.y⟩

/-- `Traceable::sample` dispatch. -/
def Shape.sampleUV : Shape → V3 → V2
  | .sphere s, p => s.sampleUV p
  | .plane pl, p => pl.sampleUV p
  | .tri t, p => t.sampleUV p

/-- `reflect::Reflect::reflect` for `Vec3`: `v - 2*(v·n)*n`. -/
def reflect (v n : V3) : V3 := v - n * (2 * v.dot n)

/-- A 3×3 matrix given by its columns (`glam::Mat3::from_cols`). -/
structure M3 where
  c0 : V3
  c1 : V3
  c2 : V3

/-- Matrix–vector product (column linear combination). -/
def M3.mulVec (m : M3) (v : V3) : V3 := m.c0 * v.x + m.c1 * v.y + m.c2 * v.z

/-- `material::tangent_to_world_matrix`. -/
def tangent_to_world_matrix (normal : V3) : M3 :=
  let n_t :=
    (if |normal.x| > |normal.y| then V3.mk normal.z 0 (-normal.x)
     else V3.mk 0 (-normal.z) normal.y).normalize
  let n_b := normal.cross n_t
  ⟨n_b, normal, n_t⟩

/-- `material::random_vector_in_hemisphere`, with the two uniform `[0,1)`
draws passed as oracle arguments. -/
def random_vector_in_hemisphere (m : M3) (r1 r2 : ℝ) : V3 :=
  let sin_theta := Real.sqrt (1 - r1 * r1)
  let phi := 2 * Real.pi * r2
  let x := sin_theta * Real.cos phi
  let z := sin_theta * Real.sin phi
  m.mulVec ⟨x, r1, z⟩

/-- `Material::schlick_reflectance`. -/
def schlick_reflectance (cosine mu : ℝ) : ℝ :=
  let r0 := (1 - mu) / (1 + mu)
  let r0sq := r0 * r0
  r0sq + (1 - r0sq) * (1 - cosine) ^ (5 : ℕ)

/-- Oracle for the thread-local RNG draws one `scatter` call can make. -/
structure Rnd where
  r1 : ℝ
  r2 : ℝ
  rs : ℝ

/-- `Material::scatter`. -/
def Material.scatter (m : Material) (ray : Ray) (inter : Inter) (rnd : Rnd) :
    Ray × Color :=
  let tex :=
    match m.texture with
    | some image =>
      let uv := inter.shape.sampleUV inter.point
      image.sample uv.x uv.y
    | none => Color.WHITE
  let tangent_matrix := tangent_to_world_matrix inter.normal
  let normal :=
    match m.normal_map with
    | some map =>
      let uv := inter.shape.sampleUV inter.point
      let n := V3.mk (map.sample uv.x uv.y).r (map.sample uv.x uv.y).g
                     (map.sample uv.x uv.y).b
      let n2 := n * (2 : ℝ) - V3.splat 1
      (tangent_matrix.mulVec n2.xzy).normalize
    | none => inter.normal
  match m.kind with
  | .Lambertian albedo =>
    let ray2 : Ray := ⟨inter.point, random_vector_in_hemisphere tangent_matrix rnd.r1 rnd.r2⟩
    let cosine_law := Max.max (ray2.dir.dot normal) 0
    (ray2, albedo * tex * cosine_law)
  | .Metal albedo =>
    let reflected := reflect ray.dir normal
    (⟨inter.point, reflected⟩, albedo * tex)
  | .Transparent index =>
    let mu := if inter.front then 1 / index else index
    let cos_theta := Min.min (ray.dir.dot (-normal)) 1
    let sin_theta := Real.sqrt (1 - cos_theta * cos_theta)
    let ray2 : Ray :=
      if 1 < mu * sin_theta ∨ rnd.rs < schlick_reflectance cos_theta mu then
        ⟨inter.point, reflect ray.dir normal⟩
      else
        let out_perp := (ray.dir + normal * cos_theta) * mu
        let out_parallel := normal * (-(Real.sqrt |1 - out_perp.dot out_perp|))
        ⟨inter.point, (out_perp + out_parallel).normalize⟩
    (ray2, Color.WHITE)

/-- `bvh::Bvh`, with its two optional children and optional shape, exactly as
the Rust struct. -/
inductive Bvh where
  | mk (lhs : Option Bvh) (rhs : Option Bvh) (bound : Rect) (shape : Option Shape)

/-- Field accessor `Bvh.lhs`. -/
def Bvh.lhs : Bvh → Option Bvh
  | .mk l _ _ _ => l

/-- Field accessor `Bvh.rhs`. -/
def Bvh.rhs : Bvh → Option Bvh
  | .mk _ r _ _ => r

/-- Field accessor `Bvh.bound`. -/
def Bvh.bound : Bvh → Rect
  | .mk _ _ b _ => b

/-- Field accessor `Bvh.shape`. -/
def Bvh.shape : Bvh → Option Shape
  | .mk _ _ _ s => s

/-- `Bvh::new` (leaf constructor). -/
def Bvh.new (bound : Rect) (shape : Shape) : Bvh := .mk none none bound (some shape)

/-- `Bvh::from_child` (inner node; the bound is the componentwise union). -/
def Bvh.from_child (l r : Bvh) : Bvh :=
  .mk (some l) (some r)
    ⟨⟨l.bound.min.x.min r.bound.min.x, l.bound.min.y.min r.bound.min.y,
      l.bound.min.z.min r.bound.min.z⟩,
     ⟨l.bound.max.x.max r.bound.max.x, l.bound.max.y.max r.bound.max.y,
      l.bound.max.z.max r.bound.max.z⟩⟩
    none

/-- The comparator `Bvh::construct` sorts with: ascending shape position on
axis x when `dim` is even, axis y when odd. -/
def sortKey (dim : ℕ) (a b : Shape) : Prop :=
  if dim % 2 = 0 then a.position.x ≤ b.position.x else a.position.y ≤ b.position.y

/-- Rust's stable ascending `sort_by`, modelled by insertion sort (stable). -/
def sortShapes (dim : ℕ) (l : List Shape) : List Shape :=
  l.insertionSort (sortKey dim)

/-- `Bvh::construct`.  The `panic!("Empty vector")` on an empty slice — the
fatal `EmptyScene` abort of the specification — is modelled as `none`. -/
def Bvh.construct (shapes : List Shape) (dim : ℕ) : Option Bvh :=
  match shapes with
  | [] => none
  | [s] => some (Bvh.new s.bounding_box s)
  | s0 :: s1 :: rest =>
    let sorted := sortShapes dim (s0 :: s1 :: rest)
    match Bvh.construct (sorted.take ((s0 :: s1 :: rest).length / 2)) (dim + 1),
          Bvh.construct (sorted.drop ((s0 :: s1 :: rest).length / 2)) (dim + 1) with
    | some a, some b => some (Bvh.from_child a b)
    | _, _ => none
termination_by shapes.length
decreasing_by
  · simp only [sortShapes, List.length_take, List.length_insertionSort, List.length_cons]
    omega
  · simp only [sortShapes, List.length_drop, List.length_insertionSort, List.length_cons]
    omega

/-- `Bvh::intersects`.  The `unwrap` calls on a malformed tree (a node with no
shape and a missing child), which would panic in Rust, are modelled as
`none`; `construct` never builds such a tree. -/
def Bvh.intersects : Bvh → Ray → Option Inter
  | .mk lhs rhs bound shape, ray =>
    if bound.intersectsRay ray then
      match shape with
      | some s => s.ray_intersection ray
      | none =>
        match lhs, rhs with
        | some l, some r =>
          match l.intersects ray, r.intersects ray with
          | some left, some right =>
            if left.point.distance_squared ray.start <
               right.point.distance_squared ray.start
            then some left else some right
          | some left, none => some left
          | none, right => right
        | _, _ => none
    else none

/-- The fold step of `Iterator::min_by` (keep the accumulator unless the new
element is strictly smaller: `min_by` returns the first minimal element). -/
def selectNearest (ray : Ray) (acc : Option Inter) (i : Inter) : Option Inter :=
  match acc with
  | none => some i
  | some a =>
    if i.point.distance_squared ray.start < a.point.distance_squared ray.start
    then some i else some a

/-- `main::intersection`: brute-force nearest hit over the scene list
(`filter_map(ray_intersection).min_by(distance_squared to ray.start)`). -/
def intersection (scene : List Shape) (ray : Ray) : Option Inter :=
  (scene.filterMap (fun s => s.ray_intersection ray)).foldl (selectNearest ray) none

/-- `main::trace`.  The per-bounce RNG draws are supplied by the oracle `rng`,
indexed by recursion depth. -/
def trace (scene : Bvh) (light_source : V3) (ray : Ray) (count : ℤ)
    (rng : ℕ → Rnd) : Color :=
  if 60 ≤ count then Color.BLACK
  else
    match scene.intersects ray with
    | some inter =>
      let rc := inter.shape.material.scatter ray inter (rng count.toNat)
      trace scene light_source rc.1.offset (count + 1) rng * rc.2
    | none =>
      let shadow := ray.dir.dot (light_source - ray.start).normalize
      if 0.9 < shadow then Color.splat shadow
      else Color.lerp ⟨0.1, 0.4, 0.7⟩ ⟨0.7, 0.8, 0.9⟩ (ray.dir.y / 2 + 0.5)
termination_by (60 - count).toNat
decreasing_by omega

end Rt

end

namespace Rt

/-! ### Helper lemmas and concrete scene objects used by witnesses -/

/-- A plain material used by concrete witnesses. -/
def matW : Material := Material.new_lambertian Color.WHITE

/-- Concrete sphere used by witnesses (center `(0,0,3)`, radius `1`). -/
def sphCW : Sphere := ⟨⟨0, 0, 3⟩, 1, matW⟩

/-- Concrete plane used by witnesses (`y = 0`, upward unit normal). -/
def plaCW : Plane := ⟨⟨0, 0, 0⟩, ⟨0, 1, 0⟩, matW⟩

/-- Concrete triangle used by witnesses (`(0,0,0), (1,0,0), (0,1,0)` with its
precomputed fields). -/
def triCW : Triangle :=
  { p0 := ⟨⟨0, 0, 0⟩, ⟨0, 0, 0⟩, ⟨0, 0⟩⟩
    p1 := ⟨⟨1, 0, 0⟩, ⟨0, 0, 0⟩, ⟨0, 0⟩⟩
    p2 := ⟨⟨0, 1, 0⟩, ⟨0, 0, 0⟩, ⟨0, 0⟩⟩
    material := matW
    normal := ⟨0, 0, -1⟩
    edge1 := ⟨1, 0, 0⟩
    edge2 := ⟨0, 1, 0⟩
    edge3 := ⟨-1, 1, 0⟩ }

end Rt

namespace Rt

/-- Concrete rays used by witnesses. -/
def rayCP : Ray := ⟨⟨0, 1, 0⟩, ⟨0, -1, 0⟩⟩

def rayCT : Ray := ⟨⟨0.25, 0.25, 1⟩, ⟨0, 0, -1⟩⟩

def rayCS : Ray := ⟨⟨0, 0, 3⟩, ⟨0, 0, 1⟩⟩

/-- Auxiliary: `construct` succeeds on every non-empty list (strong induction
on the length). -/
theorem construct_isSome_aux :
    ∀ (n : ℕ) (l : List Shape) (dim : ℕ), l.length ≤ n → l ≠ [] →
      (Bvh.construct l dim).isSome := by
  intro n
  induction n with
  | zero =>
    intro l dim hl hne
    cases l with
    | nil => exact absurd rfl hne
    | cons a t => simp at hl
  | succ n ih =>
    intro l dim hl hne
    match l with
    | [s] => simp [Bvh.construct]
    | s0 :: s1 :: rest =>
      have hlen : (sortShapes dim (s0 :: s1 :: rest)).length = rest.length + 2 := by
        simp only [sortShapes, List.length_insertionSort, List.length_cons]
      have hLl : ((sortShapes dim (s0 :: s1 :: rest)).take
          ((s0 :: s1 :: rest).length / 2)).length = (rest.length + 2) / 2 := by
        simp [List.length_take, hlen]
        omega
      have hLr : ((sortShapes dim (s0 :: s1 :: rest)).drop
          ((s0 :: s1 :: rest).length / 2)).length
          = (rest.length + 2) - (rest.length + 2) / 2 := by
        simp only [List.length_drop, hlen, List.length_cons]
      have hwl : (Bvh.construct ((sortShapes dim (s0 :: s1 :: rest)).take
          ((s0 :: s1 :: rest).length / 2)) (dim + 1)).isSome := by
        apply ih _ _ _ _
        · rw [hLl]
          simp at hl
          omega
        · apply List.ne_nil_of_length_pos
          rw [hLl]; omega
      have hwr : (Bvh.construct ((sortShapes dim (s0 :: s1 :: rest)).drop
          ((s0 :: s1 :: rest).length / 2)) (dim + 1)).isSome := by
        apply ih _ _ _ _
        · rw [hLr]
          simp at hl
          omega
        · apply List.ne_nil_of_length_pos
          rw [hLr]; omega
      obtain ⟨a, ha⟩ := Option.isSome_iff_exists.mp hwl
      obtain ⟨b, hb⟩ := Option.isSome_iff_exists.mp hwr
      simp only [Bvh.construct]
      rw [ha, hb]
      rfl

/-- Claim C3: `Bvh::construct` fails (the fatal `EmptyScene` abort, a panic in
the source) exactly on an empty shape list, and succeeds on every non-empty
list. -/
theorem construct_empty_none_nonempty_some (dim dim2 : ℕ) (l : List Shape)
    (h : l ≠ []) :
    Bvh.construct [] dim = none ∧ (Bvh.construct l dim2).isSome :=
  ⟨by simp [Bvh.construct], construct_isSome_aux l.length l dim2 le_rfl h⟩

/-- Witness for C3 at a concrete one-sphere scene. -/
theorem construct_empty_none_nonempty_some_witness :
    Bvh.construct [] 0 = none ∧ (Bvh.construct [Shape.sphere sphCW] 0).isSome :=
  construct_empty_none_nonempty_some 0 0 [Shape.sphere sphCW] (by simp)

end Rt

namespace Rt

/-- Claim C10: a plane hit record always has `front = false` and a triangle
hit record always has `front = true`, independently of the approach side. -/
theorem plane_tri_front_const :
    (∀ (p : Plane) (ray : Ray) (i : Inter),
        p.ray_intersection ray = some i → i.front = false) ∧
    (∀ (t : Triangle) (ray : Ray) (i : Inter),
        t.ray_intersection ray = some i → i.front = true) := by
  constructor
  · intro p ray i h
    simp only [Plane.ray_intersection] at h
    split_ifs at h
    all_goals first
      | exact Option.noConfusion h
      | (rw [Option.some_inj] at h; subst h; rfl)
  · intro t ray i h
    simp only [Triangle.ray_intersection] at h
    split_ifs at h
    all_goals first
      | exact Option.noConfusion h
      | (rw [Option.some_inj] at h; subst h; rfl)

def interCP : Inter := ⟨⟨0, 0, 0⟩, ⟨0, 1, 0⟩, false, .plane plaCW⟩

def interCT : Inter := ⟨⟨0.25, 0.25, 0⟩, ⟨0, 0, 1⟩, true, .tri triCW⟩

/-- Witness for C10 at a concrete plane hit and a concrete triangle hit. -/
theorem plane_tri_front_const_witness :
    interCP.front = false ∧ interCT.front = true :=
  ⟨plane_tri_front_const.1 plaCW rayCP interCP
      (by norm_num [Plane.ray_intersection, plaCW, rayCP, V3.dot, matW, interCP]),
   plane_tri_front_const.2 triCW rayCT interCT
      (by norm_num [Triangle.ray_intersection, triCW, rayCT, V3.dot, V3.cross, matW, interCT])⟩

/-- Claim C5: the sphere front flag is exactly the sign-adjusted inside test
of the source (`|start-center|^2 * sign(r) <= r^2 * sign(r)` giving
`front = false`), and an inside hit returns the flipped unit normal
`-(point-center).normalize()`. -/
theorem sphere_front_flag (s : Sphere) (ray : Ray) (i : Inter)
    (h : s.ray_intersection ray = some i) :
    (i.front = true ↔
      ¬(s.pos.distance_squared ray.start * signum s.radius ≤
        s.radius * s.radius * signum s.radius)) ∧
    (i.front = false → i.normal = -((i.point - s.pos).normalize)) := by
  simp only [Sphere.ray_intersection] at h
  split_ifs at h
  all_goals first
    | exact Option.noConfusion h
    | (rw [Option.some_inj] at h; subst h;
       exact ⟨by simp [*], by first | exact fun _ => rfl | simp⟩)

end Rt

namespace Rt

noncomputable section

/-- Claim C6 (amended): `Plane::ray_intersection` rejects exactly when
`n·dir == 0.0` (the exact `is_zero` test of the source, not an epsilon
threshold); otherwise with `t = (pos-start)·n / (n·dir)` it rejects iff
`t < 0` and on a hit returns `start + dir*t` with the plane's own normal,
never flipped. -/
theorem plane_hit_characterization (p : Plane) (ray : Ray) :
    (p.normal.dot ray.dir = 0 → p.ray_intersection ray = none) ∧
    (p.normal.dot ray.dir ≠ 0 →
      (p.normal.dot (p.pos - ray.start) / p.normal.dot ray.dir < 0 →
          p.ray_intersection ray = none) ∧
      (0 ≤ p.normal.dot (p.pos - ray.start) / p.normal.dot ray.dir →
          p.ray_intersection ray =
            some ⟨ray.start +
                    ray.dir * (p.normal.dot (p.pos - ray.start) / p.normal.dot ray.dir),
                  p.normal, false, .plane p⟩)) := by
  refine ⟨fun h => ?_, fun h => ⟨fun ht => ?_, fun ht => ?_⟩⟩
  · simp [Plane.ray_intersection, h]
  · simp [Plane.ray_intersection, h, not_le.mpr ht]
  · simp [Plane.ray_intersection, h, ht]

/-- Witness for the amended C6 at a concrete non-parallel downward ray. -/
theorem plane_hit_characterization_witness :
    Plane.ray_intersection plaCW rayCP =
      some ⟨⟨0, 0, 0⟩, ⟨0, 1, 0⟩, false, .plane plaCW⟩ := by
  have h := ((plane_hit_characterization plaCW rayCP).2
      (by norm_num [plaCW, rayCP, V3.dot])).2
      (by norm_num [plaCW, rayCP, V3.dot])
  rw [h]
  norm_num [plaCW, rayCP, V3.dot]

/-- A ray whose direction makes an angle with the plane far below `f32`
machine precision (`|n·dir| = 2^-30 < 2^-23 = f32::EPSILON`). -/
def rayC6 : Ray := ⟨⟨0, 1, 0⟩, ⟨1, -((2 : ℝ) ^ (30 : ℕ))⁻¹, 0⟩⟩

/-- Counterexample to C6 as stated: a near-parallel ray with
`|n·dir| = 2^-30` (below any plausible epsilon, in particular below
`f32::EPSILON = 2^-23`) still produces a hit, because the source only
rejects on exact zero. -/
theorem plane_epsilon_counterexample :
    |plaCW.normal.dot rayC6.dir| < ((2 : ℝ) ^ (23 : ℕ))⁻¹ ∧
    (plaCW.ray_intersection rayC6).isSome := by
  constructor
  · rw [show plaCW.normal.dot rayC6.dir = -((2 : ℝ) ^ (30 : ℕ))⁻¹ by
      norm_num [plaCW, rayC6, V3.dot]]
    rw [abs_neg, abs_inv]
    rw [abs_of_pos (by positivity)]
    rw [inv_lt_inv₀ (by positivity) (by positivity)]
    norm_num
  · have h := ((plane_hit_characterization plaCW rayC6).2
        (by norm_num [plaCW, rayC6, V3.dot])).2 ?_
    · rw [h]
      rfl
    · rw [show plaCW.normal.dot (plaCW.pos - rayC6.start) = -1 by
        norm_num [plaCW, rayC6, V3.dot]]
      rw [show plaCW.normal.dot rayC6.dir = -((2 : ℝ) ^ (30 : ℕ))⁻¹ by
        norm_num [plaCW, rayC6, V3.dot]]
      positivity

end

end Rt

namespace Rt

noncomputable section

/-- The `Repeat` sawtooth is 1-periodic. -/
theorem sawtooth_add_one (u : ℝ) : sawtooth (u + 1) = sawtooth u := by
  unfold sawtooth
  rw [show (0.5 + (u + 1 + 0.5) : ℝ) = (0.5 + (u + 0.5)) + 1 by ring,
    Int.floor_add_one]
  push_cast
  ring

/-- The `MirroredRepeat` triangle wave is even. -/
theorem triangleWave_neg (u : ℝ) : triangleWave (-u) = triangleWave u := by
  unfold triangleWave
  have key : |(-(u / 2)) - ⌊-(u / 2) + 0.5⌋| = |u / 2 - ⌊u / 2 + 0.5⌋| := by
    set y : ℝ := u / 2 with hy
    have e : (-y + 0.5 : ℝ) = -(y + 0.5) + 1 := by ring
    rw [e, Int.floor_add_one, Int.floor_neg]
    have hfc := Int.floor_le_ceil (y + 0.5)
    have hcf := Int.ceil_le_floor_add_one (y + 0.5)
    rcases (by omega : (⌈(y + 0.5 : ℝ)⌉ : ℤ) = ⌊(y + 0.5 : ℝ)⌋ ∨
        (⌈(y + 0.5 : ℝ)⌉ : ℤ) = ⌊(y + 0.5 : ℝ)⌋ + 1) with hc | hc
    · have hint : ((⌊(y + 0.5 : ℝ)⌋ : ℝ)) = y + 0.5 := by
        refine le_antisymm (Int.floor_le _) ?_
        have h2 := Int.le_ceil (y + 0.5 : ℝ)
        rw [hc] at h2
        exact_mod_cast h2
      rw [hc]
      push_cast
      rw [hint]
      rw [show (-y - (-(y + 0.5) + 1) : ℝ) = -(1 / 2) by ring,
        show (y - (y + 0.5) : ℝ) = -(1 / 2) by ring]
    · rw [hc]
      push_cast
      rw [show (-y - (-((⌊(y + 0.5 : ℝ)⌋ : ℝ) + 1) + 1) : ℝ)
          = (⌊(y + 0.5 : ℝ)⌋ : ℝ) - y by ring]
      rw [abs_sub_comm]
  rw [show (-u / 2 : ℝ) = -(u / 2) by ring]
  rw [key]

/-- Claim C9: with `Repeat` wrapping, `Texture::sample` is 1-periodic in each
coordinate; with `MirroredRepeat` wrapping it is even in each coordinate. -/
theorem texture_wrap_identities (t : Texture) (u v : ℝ) :
    ((t.set_wrapping .Repeat).sample (u + 1) v
        = (t.set_wrapping .Repeat).sample u v) ∧
    ((t.set_wrapping .Repeat).sample u (v + 1)
        = (t.set_wrapping .Repeat).sample u v) ∧
    ((t.set_wrapping .MirroredRepeat).sample (-u) v
        = (t.set_wrapping .MirroredRepeat).sample u v) ∧
    ((t.set_wrapping .MirroredRepeat).sample u (-v)
        = (t.set_wrapping .MirroredRepeat).sample u v) := by
  refine ⟨?_, ?_, ?_, ?_⟩ <;> simp only [Texture.sample, Texture.set_wrapping]
  · rw [sawtooth_add_one]
  · rw [sawtooth_add_one]
  · rw [triangleWave_neg]
  · rw [triangleWave_neg]

end

end Rt

namespace Rt

noncomputable section

/-! ### Order lemmas for the slab-test scalars (no NaN involved) -/

theorem FltN.Le_maxR_iff {a b c : FltN} (ha : a ≠ .nan) (hb : b ≠ .nan) :
    (a.maxR b).Le c ↔ a.Le c ∧ b.Le c := by
  cases a <;> cases b <;> cases c <;>
    simp_all [FltN.maxR, FltN.Le, max_le_iff]

theorem FltN.Le_minR_iff {a b c : FltN} (ha : a ≠ .nan) (hb : b ≠ .nan) :
    c.Le (a.minR b) ↔ c.Le a ∧ c.Le b := by
  cases a <;> cases b <;> cases c <;>
    simp_all [FltN.minR, FltN.Le, le_min_iff]

theorem FltN.Le_trans_fin {a c : FltN} {u : ℝ}
    (h1 : a.Le (.fin u)) (h2 : (FltN.fin u).Le c) : a.Le c := by
  cases a <;> cases c <;> simp_all [FltN.Le] <;> linarith

theorem FltN.fin_max_Le {a b : ℝ} {c : FltN}
    (h1 : (FltN.fin a).Le c) (h2 : (FltN.fin b).Le c) :
    (FltN.fin (Max.max a b)).Le c := by
  cases c <;> simp_all [FltN.Le, max_le_iff]

theorem frecip_zero : frecip 0 = .pinf := by simp [frecip]

theorem frecip_ne (d : ℝ) (h : d ≠ 0) : frecip d = .fin d⁻¹ := by
  simp [frecip, h]

theorem mul_fin_pinf_pos {a : ℝ} (h : 0 < a) :
    (FltN.fin a).mul .pinf = .pinf := by
  simp only [FltN.mul]
  rw [if_pos h]

theorem mul_fin_pinf_neg {a : ℝ} (h : a < 0) :
    (FltN.fin a).mul .pinf = .ninf := by
  simp only [FltN.mul]
  rw [if_neg (by linarith), if_pos h]

theorem mul_fin_pinf_zero : (FltN.fin 0).mul .pinf = .nan := by
  simp [FltN.mul]

/-- One slab axis, finite ordered bounds: if the direction component is
nonzero, or the origin is strictly inside the slab, then bracketing by the
computed `t` interval coincides with geometric slab membership. -/
theorem axis_bracket (bmin bmax s d : ℝ) (hord : bmin ≤ bmax)
    (hcond : d ≠ 0 ∨ (bmin < s ∧ s < bmax)) (u : ℝ) :
    ((((Flt.fin bmin).subR s).mul (frecip d)).minR
        (((Flt.fin bmax).subR s).mul (frecip d))).Le (.fin u) ∧
    (FltN.fin u).Le ((((Flt.fin bmin).subR s).mul (frecip d)).maxR
        (((Flt.fin bmax).subR s).mul (frecip d)))
      ↔ (bmin ≤ s + d * u ∧ s + d * u ≤ bmax) := by
  rcases eq_or_ne d 0 with hd | hd
  · subst hd
    rcases hcond with hc | hc
    · exact absurd rfl hc
    · rw [frecip_zero]
      simp only [Flt.subR]
      rw [mul_fin_pinf_neg (by linarith [hc.1] : bmin - s < 0),
        mul_fin_pinf_pos (by linarith [hc.2] : (0:ℝ) < bmax - s)]
      simp only [FltN.minR, FltN.maxR, FltN.Le]
      constructor
      · intro _
        constructor <;> nlinarith [hc.1, hc.2]
      · intro _
        trivial
  · rw [frecip_ne d hd]
    simp only [Flt.subR, FltN.mul, FltN.minR, FltN.maxR, FltN.Le]
    have k1 : d * ((bmin - s) * d⁻¹) = bmin - s := by field_simp
    have k2 : d * ((bmax - s) * d⁻¹) = bmax - s := by field_simp
    have k3 : d⁻¹ * (d * u) = u := by field_simp
    rcases lt_or_gt_of_ne hd with hneg | hpos
    · have hinv : d⁻¹ < 0 := inv_lt_zero.mpr hneg
      have hcmp : (bmax - s) * d⁻¹ ≤ (bmin - s) * d⁻¹ := by nlinarith
      rw [min_eq_right hcmp, max_eq_left hcmp]
      constructor
      · rintro ⟨h1, h2⟩
        constructor
        · nlinarith [mul_le_mul_of_nonpos_left h2 (le_of_lt hneg), k1]
        · nlinarith [mul_le_mul_of_nonpos_left h1 (le_of_lt hneg), k2]
      · rintro ⟨h1, h2⟩
        constructor
        · nlinarith [mul_le_mul_of_nonpos_left (by linarith : d * u ≤ bmax - s)
            (le_of_lt hinv), k3]
        · nlinarith [mul_le_mul_of_nonpos_left (by linarith : bmin - s ≤ d * u)
            (le_of_lt hinv), k3]
    · have hinv : 0 < d⁻¹ := inv_pos.mpr hpos
      have hcmp : (bmin - s) * d⁻¹ ≤ (bmax - s) * d⁻¹ := by nlinarith
      rw [min_eq_left hcmp, max_eq_right hcmp]
      constructor
      · rintro ⟨h1, h2⟩
        constructor
        · nlinarith [mul_le_mul_of_nonneg_left h1 (le_of_lt hpos), k1]
        · nlinarith [mul_le_mul_of_nonneg_left h2 (le_of_lt hpos), k2]
      · rintro ⟨h1, h2⟩
        constructor
        · nlinarith [mul_le_mul_of_nonneg_left (by linarith : bmin - s ≤ d * u)
            (le_of_lt hinv), k3]
        · nlinarith [mul_le_mul_of_nonneg_left (by linarith : d * u ≤ bmax - s)
            (le_of_lt hinv), k3]

/-- Value extraction used to build the witness parameter in `slab_combine`. -/
def FltN.val : FltN → ℝ
  | .fin x => x
  | _ => 0

theorem lo_le_fin {lo : FltN} (h : lo = .ninf ∨ ∃ x, lo = .fin x) {u : ℝ}
    (hv : lo.val ≤ u) : lo.Le (.fin u) := by
  rcases h with h | ⟨x, h⟩ <;> subst h <;> simp_all [FltN.Le, FltN.val]

theorem fin_val_le {lo hi : FltN} (h : lo = .ninf ∨ ∃ x, lo = .fin x)
    (hlh : lo.Le hi) (h0 : (FltN.fin 0).Le hi) : (FltN.fin lo.val).Le hi := by
  rcases h with h | ⟨x, h⟩ <;> subst h
  · exact h0
  · exact hlh

theorem slab_combine (lo1 lo2 lo3 hi1 hi2 hi3 : FltN)
    (hl1 : lo1 = .ninf ∨ ∃ x, lo1 = .fin x)
    (hl2 : lo2 = .ninf ∨ ∃ x, lo2 = .fin x)
    (hl3 : lo3 = .ninf ∨ ∃ x, lo3 = .fin x)
    (hh1 : hi1 = .pinf ∨ ∃ x, hi1 = .fin x)
    (hh2 : hi2 = .pinf ∨ ∃ x, hi2 = .fin x)
    (hh3 : hi3 = .pinf ∨ ∃ x, hi3 = .fin x) :
    FltN.Le (((lo1.maxR lo2).maxR lo3).maxR (.fin 0)) ((hi1.minR hi2).minR hi3)
      ↔ ∃ u, 0 ≤ u ∧ (lo1.Le (.fin u) ∧ (FltN.fin u).Le hi1)
            ∧ (lo2.Le (.fin u) ∧ (FltN.fin u).Le hi2)
            ∧ (lo3.Le (.fin u) ∧ (FltN.fin u).Le hi3) := by
  have nl1 : lo1 ≠ .nan := by rcases hl1 with h | ⟨x, h⟩ <;> simp [h]
  have nl2 : lo2 ≠ .nan := by rcases hl2 with h | ⟨x, h⟩ <;> simp [h]
  have nl3 : lo3 ≠ .nan := by rcases hl3 with h | ⟨x, h⟩ <;> simp [h]
  have nh1 : hi1 ≠ .nan := by rcases hh1 with h | ⟨x, h⟩ <;> simp [h]
  have nh2 : hi2 ≠ .nan := by rcases hh2 with h | ⟨x, h⟩ <;> simp [h]
  have nh3 : hi3 ≠ .nan := by rcases hh3 with h | ⟨x, h⟩ <;> simp [h]
  have nmx2 : lo1.maxR lo2 ≠ .nan := by
    rcases hl1 with h1 | ⟨x, h1⟩ <;> rcases hl2 with h2 | ⟨y, h2⟩ <;>
      simp [h1, h2, FltN.maxR]
  have nmx : (lo1.maxR lo2).maxR lo3 ≠ .nan := by
    rcases hl3 with h3 | ⟨z, h3⟩ <;> cases hx : lo1.maxR lo2 <;>
      simp_all [FltN.maxR]
  have nmn2 : hi1.minR hi2 ≠ .nan := by
    rcases hh1 with h1 | ⟨x, h1⟩ <;> rcases hh2 with h2 | ⟨y, h2⟩ <;>
      simp [h1, h2, FltN.minR]
  rw [FltN.Le_maxR_iff nmx (by simp), FltN.Le_maxR_iff nmx2 nl3,
    FltN.Le_maxR_iff nl1 nl2]
  simp only [FltN.Le_minR_iff nmn2 nh3, FltN.Le_minR_iff nh1 nh2]
  constructor
  · rintro ⟨⟨⟨⟨⟨h11, h12⟩, h13⟩, ⟨⟨h21, h22⟩, h23⟩⟩, ⟨⟨h31, h32⟩, h33⟩⟩,
      ⟨⟨h01, h02⟩, h03⟩⟩
    refine ⟨Max.max (Max.max lo1.val lo2.val) (Max.max lo3.val 0), ?_, ?_, ?_, ?_⟩
    · exact le_max_of_le_right (le_max_right _ _)
    · refine ⟨lo_le_fin hl1 (le_max_of_le_left (le_max_left _ _)), ?_⟩
      exact FltN.fin_max_Le
        (FltN.fin_max_Le (fin_val_le hl1 h11 h01) (fin_val_le hl2 h21 h01))
        (FltN.fin_max_Le (fin_val_le hl3 h31 h01) h01)
    · refine ⟨lo_le_fin hl2 (le_max_of_le_left (le_max_right _ _)), ?_⟩
      exact FltN.fin_max_Le
        (FltN.fin_max_Le (fin_val_le hl1 h12 h02) (fin_val_le hl2 h22 h02))
        (FltN.fin_max_Le (fin_val_le hl3 h32 h02) h02)
    · refine ⟨lo_le_fin hl3 (le_max_of_le_right (le_max_left _ _)), ?_⟩
      exact FltN.fin_max_Le
        (FltN.fin_max_Le (fin_val_le hl1 h13 h03) (fin_val_le hl2 h23 h03))
        (FltN.fin_max_Le (fin_val_le hl3 h33 h03) h03)
  · rintro ⟨u, hu, ⟨g11, g12⟩, ⟨g21, g22⟩, g31, g32⟩
    have f0 : (FltN.fin 0).Le (.fin u) := by
      simpa [FltN.Le] using hu
    exact ⟨⟨⟨⟨⟨FltN.Le_trans_fin g11 g12, FltN.Le_trans_fin g11 g22⟩,
        FltN.Le_trans_fin g11 g32⟩,
        ⟨⟨FltN.Le_trans_fin g21 g12, FltN.Le_trans_fin g21 g22⟩,
          FltN.Le_trans_fin g21 g32⟩⟩,
        ⟨⟨FltN.Le_trans_fin g31 g12, FltN.Le_trans_fin g31 g22⟩,
          FltN.Le_trans_fin g31 g32⟩⟩,
      ⟨⟨FltN.Le_trans_fin f0 g12, FltN.Le_trans_fin f0 g22⟩,
        FltN.Le_trans_fin f0 g32⟩⟩

theorem axis_lo_shape (bmin bmax s d : ℝ)
    (hcond : d ≠ 0 ∨ (bmin < s ∧ s < bmax)) :
    ((((Flt.fin bmin).subR s).mul (frecip d)).minR
      (((Flt.fin bmax).subR s).mul (frecip d))) = .ninf ∨
    ∃ x, ((((Flt.fin bmin).subR s).mul (frecip d)).minR
      (((Flt.fin bmax).subR s).mul (frecip d))) = .fin x := by
  rcases eq_or_ne d 0 with hd | hd
  · subst hd
    rcases hcond with hc | hc
    · exact absurd rfl hc
    · left
      rw [frecip_zero]
      simp only [Flt.subR]
      rw [mul_fin_pinf_neg (by linarith [hc.1] : bmin - s < 0),
        mul_fin_pinf_pos (by linarith [hc.2] : (0:ℝ) < bmax - s)]
      rfl
  · right
    rw [frecip_ne d hd]
    simp only [Flt.subR, FltN.mul, FltN.minR]
    exact ⟨_, rfl⟩

theorem axis_hi_shape (bmin bmax s d : ℝ)
    (hcond : d ≠ 0 ∨ (bmin < s ∧ s < bmax)) :
    ((((Flt.fin bmin).subR s).mul (frecip d)).maxR
      (((Flt.fin bmax).subR s).mul (frecip d))) = .pinf ∨
    ∃ x, ((((Flt.fin bmin).subR s).mul (frecip d)).maxR
      (((Flt.fin bmax).subR s).mul (frecip d))) = .fin x := by
  rcases eq_or_ne d 0 with hd | hd
  · subst hd
    rcases hcond with hc | hc
    · exact absurd rfl hc
    · left
      rw [frecip_zero]
      simp only [Flt.subR]
      rw [mul_fin_pinf_neg (by linarith [hc.1] : bmin - s < 0),
        mul_fin_pinf_pos (by linarith [hc.2] : (0:ℝ) < bmax - s)]
      rfl
  · right
    rw [frecip_ne d hd]
    simp only [Flt.subR, FltN.mul, FltN.maxR]
    exact ⟨_, rfl⟩

/-- Claim C4 (amended): for a box with finite, componentwise ordered corners
and a ray such that every axis with a zero direction component has its origin
strictly inside that axis slab, the slab test as implemented (with IEEE ±∞
propagation) holds iff some parameter `u ≥ 0` puts `start + dir*u` inside the
box.  The strictness proviso is forced by the `0 * ∞ = NaN` boundary case,
where the implemented test misses a geometrically hit box (see
`slab_nan_counterexample`). -/
theorem slab_geometric (bmin bmax : V3) (ray : Ray)
    (hordx : bmin.x ≤ bmax.x) (hordy : bmin.y ≤ bmax.y) (hordz : bmin.z ≤ bmax.z)
    (hcx : ray.dir.x ≠ 0 ∨ (bmin.x < ray.start.x ∧ ray.start.x < bmax.x))
    (hcy : ray.dir.y ≠ 0 ∨ (bmin.y < ray.start.y ∧ ray.start.y < bmax.y))
    (hcz : ray.dir.z ≠ 0 ∨ (bmin.z < ray.start.z ∧ ray.start.z < bmax.z)) :
    (Rect.mk (F3.ofV3 bmin) (F3.ofV3 bmax)).intersectsRay ray ↔
      ∃ u : ℝ, 0 ≤ u ∧
        (Rect.mk (F3.ofV3 bmin) (F3.ofV3 bmax)).containsPoint
          (ray.start + ray.dir * u) := by
  simp only [Rect.intersectsRay, F3.ofV3]
  rw [slab_combine _ _ _ _ _ _
    (axis_lo_shape bmin.x bmax.x ray.start.x ray.dir.x hcx)
    (axis_lo_shape bmin.y bmax.y ray.start.y ray.dir.y hcy)
    (axis_lo_shape bmin.z bmax.z ray.start.z ray.dir.z hcz)
    (axis_hi_shape bmin.x bmax.x ray.start.x ray.dir.x hcx)
    (axis_hi_shape bmin.y bmax.y ray.start.y ray.dir.y hcy)
    (axis_hi_shape bmin.z bmax.z ray.start.z ray.dir.z hcz)]
  apply exists_congr
  intro u
  rw [and_congr_right_iff]
  intro _
  rw [axis_bracket bmin.x bmax.x ray.start.x ray.dir.x hordx hcx u,
    axis_bracket bmin.y bmax.y ray.start.y ray.dir.y hordy hcy u,
    axis_bracket bmin.z bmax.z ray.start.z ray.dir.z hordz hcz u]
  simp only [Rect.containsPoint, F3.ofV3, Flt.Le, V3.add_x, V3.add_y, V3.add_z,
    V3.smul_x, V3.smul_y, V3.smul_z]
  constructor
  · rintro ⟨⟨a1, a2⟩, ⟨b1, b2⟩, c1, c2⟩
    refine ⟨?_, ?_, ?_, ?_, ?_, ?_⟩ <;> linarith
  · rintro ⟨a1, a2, b1, b2, c1, c2⟩
    refine ⟨⟨?_, ?_⟩, ⟨?_, ?_⟩, ?_, ?_⟩ <;> linarith

/-- Counterexample to C4 as stated: the box `[0,1]^3` and the ray starting at
`(0, 1/2, 1/2)` (on the `x = 0` face) with direction `(0,0,1)`.  Geometrically
the ray lies inside the box from `u = 0` on, but the implemented slab test
reports a miss: `(0 - 0) * (1/0) = 0 * ∞ = NaN`, and Rust's `min`/`max` then
discard the NaN, leaving `tmin = +∞`. -/
theorem slab_nan_counterexample :
    ¬ (Rect.mk (F3.ofV3 ⟨0, 0, 0⟩) (F3.ofV3 ⟨1, 1, 1⟩)).intersectsRay
        ⟨⟨0, 0.5, 0.5⟩, ⟨0, 0, 1⟩⟩ ∧
    (0 : ℝ) ≤ 0 ∧
    (Rect.mk (F3.ofV3 ⟨0, 0, 0⟩) (F3.ofV3 ⟨1, 1, 1⟩)).containsPoint
      ((⟨0, 0.5, 0.5⟩ : V3) + (⟨0, 0, 1⟩ : V3) * (0 : ℝ)) := by
  refine ⟨?_, le_refl 0, ?_⟩
  · norm_num [Rect.intersectsRay, F3.ofV3, frecip, Flt.subR, FltN.mul,
      FltN.minR, FltN.maxR, FltN.Le]
  · norm_num [Rect.containsPoint, F3.ofV3, Flt.Le]

/-- Witness for the amended C4 at a concrete box and ray satisfying the
provisos (`dir.x` nonzero, origin strictly inside the `y` and `z` slabs). -/
theorem slab_geometric_witness :
    (Rect.mk (F3.ofV3 ⟨0, 0, 0⟩) (F3.ofV3 ⟨1, 1, 1⟩)).intersectsRay
        ⟨⟨-1, 0.5, 0.5⟩, ⟨1, 0, 0⟩⟩ ↔
      ∃ u : ℝ, 0 ≤ u ∧
        (Rect.mk (F3.ofV3 ⟨0, 0, 0⟩) (F3.ofV3 ⟨1, 1, 1⟩)).containsPoint
          ((⟨-1, 0.5, 0.5⟩ : V3) + (⟨1, 0, 0⟩ : V3) * u) :=
  slab_geometric ⟨0, 0, 0⟩ ⟨1, 1, 1⟩ ⟨⟨-1, 0.5, 0.5⟩, ⟨1, 0, 0⟩⟩
    (by norm_num) (by norm_num) (by norm_num)
    (Or.inl (by norm_num)) (Or.inr (by norm_num)) (Or.inr (by norm_num))

end

end Rt

namespace Rt

noncomputable section

/-- All channels within `[0,1]` (specification-side predicate). -/
def Color.inUnit (c : Color) : Prop :=
  0 ≤ c.r ∧ c.r ≤ 1 ∧ 0 ≤ c.g ∧ c.g ≤ 1 ∧ 0 ≤ c.b ∧ c.b ≤ 1

theorem Color.from_u8_inUnit (p : Pix) : (Color.from_u8 p).inUnit := by
  have hr := p.r.isLt
  have hg := p.g.isLt
  have hb := p.b.isLt
  unfold Color.from_u8 Color.inUnit
  refine ⟨by positivity, ?_, by positivity, ?_, by positivity, ?_⟩ <;>
    · rw [div_le_one (by norm_num)]
      norm_num
      omega

theorem Color.lerp_inUnit {a b : Color} {t : ℝ} (ha : a.inUnit) (hb : b.inUnit)
    (ht0 : 0 ≤ t) (ht1 : t ≤ 1) : (a.lerp b t).inUnit := by
  obtain ⟨a1, a2, a3, a4, a5, a6⟩ := ha
  obtain ⟨b1, b2, b3, b4, b5, b6⟩ := hb
  unfold Color.lerp Color.inUnit
  refine ⟨?_, ?_, ?_, ?_, ?_, ?_⟩ <;> simp <;> nlinarith

theorem sub_floor_bounds (x : ℝ) : 0 ≤ x - (⌊x⌋ : ℝ) ∧ x - (⌊x⌋ : ℝ) ≤ 1 :=
  ⟨by linarith [Int.floor_le x], by linarith [Int.lt_floor_add_one x]⟩

/-- Every bilinear texture sample lies in `[0,1]` per channel: the texels are
8-bit and the interpolation weights are fractional parts. -/
theorem Texture.sample_inUnit (t : Texture) (u v : ℝ) :
    (t.sample u v).inUnit := by
  simp only [Texture.sample]
  exact Color.lerp_inUnit
    (Color.lerp_inUnit (Color.from_u8_inUnit _) (Color.from_u8_inUnit _)
      (sub_floor_bounds _).1 (sub_floor_bounds _).2)
    (Color.lerp_inUnit (Color.from_u8_inUnit _) (Color.from_u8_inUnit _)
      (sub_floor_bounds _).1 (sub_floor_bounds _).2)
    (sub_floor_bounds _).1 (sub_floor_bounds _).2

theorem V3.dot_nonneg_self (v : V3) : 0 ≤ v.dot v := by
  unfold V3.dot
  nlinarith [sq_nonneg v.x, sq_nonneg v.y, sq_nonneg v.z]

theorem V3.dot_sq_le (a b : V3) : (a.dot b) ^ 2 ≤ (a.dot a) * (b.dot b) := by
  unfold V3.dot
  nlinarith [sq_nonneg (a.x * b.y - a.y * b.x), sq_nonneg (a.x * b.z - a.z * b.x),
    sq_nonneg (a.y * b.z - a.z * b.y)]

theorem V3.dot_smul_right (a b : V3) (t : ℝ) : a.dot (b * t) = a.dot b * t := by
  unfold V3.dot
  simp
  ring

theorem V3.normalize_dot_self_le_one (v : V3) :
    v.normalize.dot v.normalize ≤ 1 := by
  have hD : 0 ≤ v.dot v := V3.dot_nonneg_self v
  have key : v.normalize.dot v.normalize
      = (v.dot v) * ((Real.sqrt (v.dot v))⁻¹) ^ 2 := by
    unfold V3.normalize V3.length V3.dot
    simp
    ring
  rw [key]
  rcases eq_or_lt_of_le hD with h | h
  · rw [← h]
    norm_num
  · rw [inv_pow, Real.sq_sqrt hD, mul_inv_cancel₀ (ne_of_gt h)]

theorem V3.cross_dot_self (a b : V3) :
    (a.cross b).dot (a.cross b) = (a.dot a) * (b.dot b) - (a.dot b) ^ 2 := by
  unfold V3.cross V3.dot
  ring

theorem V3.cross_dot_left (a b : V3) : (a.cross b).dot a = 0 := by
  unfold V3.cross V3.dot
  ring

theorem V3.cross_dot_right (a b : V3) : (a.cross b).dot b = 0 := by
  unfold V3.cross V3.dot
  ring

theorem M3.mulVec_dot_self (m : M3) (s : V3) :
    (m.mulVec s).dot (m.mulVec s)
      = s.x ^ 2 * (m.c0.dot m.c0) + s.y ^ 2 * (m.c1.dot m.c1)
        + s.z ^ 2 * (m.c2.dot m.c2) + 2 * s.x * s.y * (m.c0.dot m.c1)
        + 2 * s.x * s.z * (m.c0.dot m.c2) + 2 * s.y * s.z * (m.c1.dot m.c2) := by
  unfold M3.mulVec V3.dot
  simp
  ring

theorem M3.mulVec_dot_right (m : M3) (s w : V3) :
    (m.mulVec s).dot w
      = s.x * (m.c0.dot w) + s.y * (m.c1.dot w) + s.z * (m.c2.dot w) := by
  unfold M3.mulVec V3.dot
  simp
  ring

theorem tangent_w_orth (n : V3) :
    n.dot (if |n.x| > |n.y| then V3.mk n.z 0 (-n.x) else V3.mk 0 (-n.z) n.y)
      = 0 := by
  split_ifs <;> (unfold V3.dot; simp; ring)

theorem dot_normalize_right (n w : V3) (h : n.dot w = 0) :
    n.dot w.normalize = 0 := by
  unfold V3.normalize
  rw [V3.dot_smul_right, h, zero_mul]

/-- The hemisphere sample transformed by the tangent frame of a unit normal
has a dot product of at most 1 against any vector of norm at most 1. -/
theorem hemisphere_dot_le_one (n N2 : V3) (hn : n.dot n = 1)
    (hN : N2.dot N2 ≤ 1) (r1 r2 : ℝ) (h0 : 0 ≤ r1) (h1 : r1 ≤ 1) :
    (random_vector_in_hemisphere (tangent_to_world_matrix n) r1 r2).dot N2
      ≤ 1 := by
  have horth : n.dot (if |n.x| > |n.y| then V3.mk n.z 0 (-n.x)
      else V3.mk 0 (-n.z) n.y).normalize = 0 :=
    dot_normalize_right _ _ (tangent_w_orth n)
  set t := (if |n.x| > |n.y| then V3.mk n.z 0 (-n.x)
      else V3.mk 0 (-n.z) n.y).normalize with ht
  have htt : t.dot t ≤ 1 := V3.normalize_dot_self_le_one _
  have hc0 : (n.cross t).dot (n.cross t) ≤ 1 := by
    rw [V3.cross_dot_self, hn, horth]
    nlinarith
  have hc0n : (n.cross t).dot n = 0 := V3.cross_dot_left n t
  have hc0t : (n.cross t).dot t = 0 := V3.cross_dot_right n t
  have hsin : Real.sqrt (1 - r1 * r1) ^ 2 = 1 - r1 * r1 :=
    Real.sq_sqrt (by nlinarith)
  set d := random_vector_in_hemisphere (tangent_to_world_matrix n) r1 r2 with hd
  have hdd : d.dot d ≤ 1 := by
    rw [hd]
    unfold random_vector_in_hemisphere tangent_to_world_matrix
    rw [M3.mulVec_dot_self]
    simp only [← ht]
    rw [hn, horth, hc0n, hc0t]
    nlinarith [hsin, htt, hc0, V3.dot_nonneg_self (n.cross t),
      V3.dot_nonneg_self t, Real.sin_sq_add_cos_sq (2 * Real.pi * r2),
      sq_nonneg (Real.cos (2 * Real.pi * r2)),
      sq_nonneg (Real.sin (2 * Real.pi * r2)),
      Real.sq_sqrt (by nlinarith : (0:ℝ) ≤ 1 - r1 * r1),
      Real.sqrt_nonneg (1 - r1 * r1)]
  have cs : (d.dot N2) ^ 2 ≤ (d.dot d) * (N2.dot N2) := V3.dot_sq_le d N2
  nlinarith [cs, hdd, hN, V3.dot_nonneg_self N2, V3.dot_nonneg_self d]

theorem Color.WHITE_inUnit : Color.WHITE.inUnit := by
  unfold Color.WHITE Color.splat Color.inUnit
  norm_num

theorem mul_unit2 {a t : Color} (ha : a.inUnit) (ht : t.inUnit) :
    (a * t).inUnit := by
  obtain ⟨a1, a2, a3, a4, a5, a6⟩ := ha
  obtain ⟨b1, b2, b3, b4, b5, b6⟩ := ht
  exact ⟨mul_nonneg a1 b1, mul_le_one a2 b1 b2,
    mul_nonneg a3 b3, mul_le_one a4 b3 b4,
    mul_nonneg a5 b5, mul_le_one a6 b5 b6⟩

theorem mul_unit3 {a t : Color} {c : ℝ} (ha : a.inUnit) (ht : t.inUnit)
    (h0 : 0 ≤ c) (h1 : c ≤ 1) : (a * t * c).inUnit := by
  obtain ⟨a1, a2, a3, a4, a5, a6⟩ := ha
  obtain ⟨b1, b2, b3, b4, b5, b6⟩ := ht
  exact ⟨mul_nonneg (mul_nonneg a1 b1) h0,
    mul_le_one (mul_le_one a2 b1 b2) h0 h1,
    mul_nonneg (mul_nonneg a3 b3) h0,
    mul_le_one (mul_le_one a4 b3 b4) h0 h1,
    mul_nonneg (mul_nonneg a5 b5) h0,
    mul_le_one (mul_le_one a6 b5 b6) h0 h1⟩

/-- Claim C8 (amended): the attenuation returned by `Material::scatter` has
all channels in `[0,1]` for Metal with albedo in `[0,1]`, and for Lambertian
with albedo in `[0,1]` provided additionally that the hit normal is unit
length (true for sphere and triangle records, and for planes whose scene
normal is unit as the data model requires) and the RNG draw `r1` lies in
`[0,1]` as `gen_range(0.0..1.0)` guarantees; for Transparent the attenuation
is exactly white.  Without the unit-normal proviso the Lambertian cosine
factor can exceed 1 (see the counterexample). -/
theorem scatter_attenuation (m : Material) (ray : Ray) (inter : Inter)
    (rnd : Rnd) :
    (∀ albedo, m.kind = .Lambertian albedo →
      inter.normal.dot inter.normal = 1 → 0 ≤ rnd.r1 → rnd.r1 ≤ 1 →
      albedo.inUnit → ((m.scatter ray inter rnd).2).inUnit) ∧
    (∀ albedo, m.kind = .Metal albedo → albedo.inUnit →
      ((m.scatter ray inter rnd).2).inUnit) ∧
    (∀ idx, m.kind = .Transparent idx →
      (m.scatter ray inter rnd).2 = Color.WHITE) := by
  obtain ⟨mtex, mmap, mkind⟩ := m
  refine ⟨?_, ?_, ?_⟩
  · rintro albedo rfl hn h0 h1 halb
    rcases mtex with _ | timg <;> rcases mmap with _ | tmap <;>
      simp only [Material.scatter] <;>
      refine mul_unit3 halb ?_ (le_max_right _ _) (max_le ?_ zero_le_one)
    · exact Color.WHITE_inUnit
    · exact hemisphere_dot_le_one inter.normal inter.normal hn (le_of_eq hn)
        rnd.r1 rnd.r2 h0 h1
    · exact Color.WHITE_inUnit
    · exact hemisphere_dot_le_one inter.normal _ hn
        (V3.normalize_dot_self_le_one _) rnd.r1 rnd.r2 h0 h1
    · exact Texture.sample_inUnit timg _ _
    · exact hemisphere_dot_le_one inter.normal inter.normal hn (le_of_eq hn)
        rnd.r1 rnd.r2 h0 h1
    · exact Texture.sample_inUnit timg _ _
    · exact hemisphere_dot_le_one inter.normal _ hn
        (V3.normalize_dot_self_le_one _) rnd.r1 rnd.r2 h0 h1
  · rintro albedo rfl halb
    rcases mtex with _ | timg <;> rcases mmap with _ | tmap <;>
      simp only [Material.scatter]
    · exact mul_unit2 halb Color.WHITE_inUnit
    · exact mul_unit2 halb Color.WHITE_inUnit
    · exact mul_unit2 halb (Texture.sample_inUnit timg _ _)
    · exact mul_unit2 halb (Texture.sample_inUnit timg _ _)
  · rintro idx rfl
    rcases mtex with _ | timg <;> rcases mmap with _ | tmap <;>
      simp only [Material.scatter]

/-- Hit record with a non-unit normal (length 2), as a plane with scene
normal `(0,2,0)` would produce. -/
def interC8 : Inter := ⟨⟨0, 0, 0⟩, ⟨0, 2, 0⟩, true, .sphere sphCW⟩

/-- Counterexample to C8 as stated: a Lambertian scatter with albedo
`(1,1,1) ∈ [0,1]` on a hit record whose normal has length 2 returns
attenuation `(2,2,2)`, outside `[0,1]` (RNG draws `r1 = 1/2`, `r2 = 0`). -/
theorem scatter_attenuation_counterexample :
    ((Material.new_lambertian Color.WHITE).scatter ⟨⟨0, 0, 0⟩, ⟨0, 0, 1⟩⟩
        interC8 ⟨0.5, 0, 0⟩).2 = Color.splat 2 ∧
    Color.WHITE.inUnit ∧ ¬ (Color.splat 2).inUnit := by
  refine ⟨?_, Color.WHITE_inUnit, ?_⟩
  · have dval : (random_vector_in_hemisphere
        (tangent_to_world_matrix (⟨0, 2, 0⟩ : V3)) 0.5 0).dot (⟨0, 2, 0⟩ : V3)
        = 2 := by
      unfold random_vector_in_hemisphere tangent_to_world_matrix M3.mulVec
      norm_num [V3.normalize, V3.length, V3.dot, V3.cross]
    simp only [Material.scatter, Material.new_lambertian, interC8]
    rw [dval]
    norm_num [Color.WHITE, Color.splat]
  · unfold Color.splat Color.inUnit
    norm_num

/-- Witness for the amended C8: a Lambertian scatter on a unit normal, a
Metal scatter and a Transparent scatter, all with in-range inputs. -/
theorem scatter_attenuation_witness :
    (((Material.new_lambertian (Color.splat 0.5)).scatter rayCS
        ⟨⟨0, 0, 0⟩, ⟨0, 1, 0⟩, true, .sphere sphCW⟩ ⟨0.5, 0.25, 0⟩).2).inUnit ∧
    (((Material.new_metal (Color.splat 0.5)).scatter rayCS
        ⟨⟨0, 0, 0⟩, ⟨0, 1, 0⟩, true, .sphere sphCW⟩ ⟨0, 0, 0⟩).2).inUnit ∧
    ((Material.new_transparent 1.5).scatter rayCS
        ⟨⟨0, 0, 0⟩, ⟨0, 1, 0⟩, true, .sphere sphCW⟩ ⟨0, 0, 0⟩).2 = Color.WHITE :=
  ⟨(scatter_attenuation _ _ _ _).1 (Color.splat 0.5) rfl
      (by norm_num [V3.dot]) (by norm_num) (by norm_num)
      (by unfold Color.splat Color.inUnit; norm_num),
   (scatter_attenuation _ _ _ _).2.1 (Color.splat 0.5) rfl
      (by unfold Color.splat Color.inUnit; norm_num),
   (scatter_attenuation _ _ _ _).2.2 1.5 rfl⟩

end

end Rt

namespace Rt

noncomputable section

/-- Claim C7 (amended): when the BVH reports no hit and the depth cutoff is
not reached, `trace` returns `Color::splat(s)` when `s > 0.9` and the sky
gradient otherwise, where `s = ray.dir · normalize(light_source - ray.start)`;
there is no separate `WHITE·I_sun + sky` sun term and the threshold is `0.9`,
not `0.95`. -/
theorem trace_escape (scene : Bvh) (light : V3) (ray : Ray) (count : ℤ)
    (rng : ℕ → Rnd) (hmiss : scene.intersects ray = none) (hc : count < 60) :
    trace scene light ray count rng =
      (if 0.9 < ray.dir.dot (light - ray.start).normalize
       then Color.splat (ray.dir.dot (light - ray.start).normalize)
       else Color.lerp ⟨0.1, 0.4, 0.7⟩ ⟨0.7, 0.8, 0.9⟩ (ray.dir.y / 2 + 0.5)) := by
  rw [trace]
  rw [if_neg (by omega : ¬ (60 : ℤ) ≤ count), hmiss]

/-- Sphere far off-axis, used to build a scene the test rays miss. -/
def sphC7 : Sphere := ⟨⟨-100, 0, 0⟩, 10, matW⟩

def bvhC7 : Bvh := Bvh.new sphC7.bounding_box (.sphere sphC7)

/-- Ray with `dir · sun_dir = 35/37 ≈ 0.946`, between the code's 0.9
threshold and the claim's 0.95. -/
def rayC7 : Ray := ⟨⟨0, 0, 0⟩, ⟨12/37, 0, 35/37⟩⟩

theorem bvhC7_miss : bvhC7.intersects rayC7 = none := by
  simp only [Bvh.intersects, bvhC7, Bvh.new]
  rw [if_neg]
  norm_num [Sphere.bounding_box, Rect.order_components, Rect.intersectsRay,
    F3.ofV3, V3.splat, sphC7, rayC7, matW, Flt.min, Flt.max, Flt.subR, frecip,
    FltN.mul, FltN.minR, FltN.maxR, FltN.Le]

theorem sqrt25 : Real.sqrt 25 = 5 := by
  rw [show (25 : ℝ) = 5 ^ 2 by norm_num, Real.sqrt_sq (by norm_num)]

/-- Counterexample to C7 as stated: the escaping ray with
`s = 35/37 ∈ (0.9, 0.95)` returns `Color::splat(35/37)`, not the sky
`lerp((0.1,0.4,0.7),(0.7,0.8,0.9), 0.5) = (0.4,0.6,0.8)` the claim demands
for `s < 0.95`. -/
theorem trace_escape_counterexample :
    trace bvhC7 ⟨0, 0, 5⟩ rayC7 0 (fun _ => ⟨0, 0, 0⟩) = Color.splat (35/37) ∧
    (35/37 : ℝ) < 0.95 ∧
    Color.lerp ⟨0.1, 0.4, 0.7⟩ ⟨0.7, 0.8, 0.9⟩ ((0 : ℝ) / 2 + 0.5)
      = ⟨0.4, 0.6, 0.8⟩ ∧
    Color.splat (35/37) ≠ ⟨0.4, 0.6, 0.8⟩ := by
  refine ⟨?_, by norm_num, ?_, ?_⟩
  · rw [trace]
    rw [if_neg (by norm_num), bvhC7_miss]
    have hn : ((⟨0, 0, 5⟩ : V3) - rayC7.start).normalize = ⟨0, 0, 1⟩ := by
      unfold V3.normalize V3.length
      norm_num [rayC7, V3.dot, sqrt25]
    simp only [hn]
    rw [if_pos (by norm_num [rayC7, V3.dot])]
    norm_num [rayC7, V3.dot, Color.splat]
  · unfold Color.lerp
    norm_num
  · unfold Color.splat
    intro h
    have := congrArg Color.r h
    norm_num at this

/-- Witness for the amended C7 at the same concrete escaping ray. -/
theorem trace_escape_witness :
    trace bvhC7 ⟨0, 0, 5⟩ rayC7 0 (fun _ => ⟨0, 0, 0⟩) =
      (if 0.9 < rayC7.dir.dot ((⟨0, 0, 5⟩ : V3) - rayC7.start).normalize
       then Color.splat (rayC7.dir.dot ((⟨0, 0, 5⟩ : V3) - rayC7.start).normalize)
       else Color.lerp ⟨0.1, 0.4, 0.7⟩ ⟨0.7, 0.8, 0.9⟩ (rayC7.dir.y / 2 + 0.5)) :=
  trace_escape bvhC7 ⟨0, 0, 5⟩ rayC7 0 (fun _ => ⟨0, 0, 0⟩) bvhC7_miss
    (by norm_num)

end

end Rt

namespace Rt

noncomputable section

/-- The multiset of shapes stored in the leaves of a tree
(specification-side). -/
def Bvh.leaves : Bvh → List Shape
  | .mk lhs rhs _ shape =>
    (match shape with | some s => [s] | none => []) ++
    (match lhs with | some l => l.leaves | none => []) ++
    (match rhs with | some r => r.leaves | none => [])

/-- All subtrees of a tree, itself included (specification-side). -/
def Bvh.nodes : Bvh → List Bvh
  | .mk lhs rhs bound shape =>
    .mk lhs rhs bound shape ::
    ((match lhs with | some l => l.nodes | none => []) ++
     (match rhs with | some r => r.nodes | none => []))

/-- The componentwise union bound computed by `Bvh::from_child`. -/
def unionRect (a b : Rect) : Rect :=
  ⟨⟨a.min.x.min b.min.x, a.min.y.min b.min.y, a.min.z.min b.min.z⟩,
   ⟨a.max.x.max b.max.x, a.max.y.max b.max.y, a.max.z.max b.max.z⟩⟩

theorem from_child_eq (l r : Bvh) :
    Bvh.from_child l r = .mk (some l) (some r) (unionRect l.bound r.bound) none := rfl

/-- Structural well-formedness of the trees `construct` builds: a leaf holds
exactly one shape, no children and its shape's bounding box; an inner node
holds no shape, two children and the union of their bounds. -/
def Bvh.WF : Bvh → Prop
  | .mk lhs rhs bound shape =>
    match shape, lhs, rhs with
    | some s, none, none => bound = s.bounding_box
    | none, some l, some r =>
      bound = unionRect l.bound r.bound ∧ l.WF ∧ r.WF
    | _, _, _ => False

theorem Flt.Le_refl (a : Flt) : a.Le a := by
  cases a <;> simp [Flt.Le]

theorem Flt.Le_trans {a b c : Flt} (h1 : a.Le b) (h2 : b.Le c) : a.Le c := by
  cases a <;> cases b <;> cases c <;> simp_all [Flt.Le] <;> linarith

theorem Flt.min_Le_left (a b : Flt) : (a.min b).Le a := by
  cases a <;> cases b <;> simp [Flt.min, Flt.Le, min_le_left]

theorem Flt.min_Le_right (a b : Flt) : (a.min b).Le b := by
  cases a <;> cases b <;> simp [Flt.min, Flt.Le, min_le_right]

theorem Flt.Le_max_left (a b : Flt) : a.Le (a.max b) := by
  cases a <;> cases b <;> simp [Flt.max, Flt.Le, le_max_left]

theorem Flt.Le_max_right (a b : Flt) : b.Le (a.max b) := by
  cases a <;> cases b <;> simp [Flt.max, Flt.Le, le_max_right]

theorem Rect.containsRect_refl (r : Rect) : r.containsRect r :=
  ⟨Flt.Le_refl _, Flt.Le_refl _, Flt.Le_refl _, Flt.Le_refl _,
   Flt.Le_refl _, Flt.Le_refl _⟩

theorem Rect.containsRect_trans {a b c : Rect} (h1 : a.containsRect b)
    (h2 : b.containsRect c) : a.containsRect c := by
  obtain ⟨x1, x2, y1, y2, z1, z2⟩ := h1
  obtain ⟨u1, u2, v1, v2, w1, w2⟩ := h2
  exact ⟨Flt.Le_trans x1 u1, Flt.Le_trans u2 x2, Flt.Le_trans y1 v1,
    Flt.Le_trans v2 y2, Flt.Le_trans z1 w1, Flt.Le_trans w2 z2⟩

theorem unionRect_contains_left (a b : Rect) : (unionRect a b).containsRect a :=
  ⟨Flt.min_Le_left _ _, Flt.Le_max_left _ _, Flt.min_Le_left _ _,
   Flt.Le_max_left _ _, Flt.min_Le_left _ _, Flt.Le_max_left _ _⟩

theorem unionRect_contains_right (a b : Rect) : (unionRect a b).containsRect b :=
  ⟨Flt.min_Le_right _ _, Flt.Le_max_right _ _, Flt.min_Le_right _ _,
   Flt.Le_max_right _ _, Flt.min_Le_right _ _, Flt.Le_max_right _ _⟩

/-- A well-formed node's bound contains the bounding box of every shape in
its leaves. -/
theorem WF_contains : ∀ t : Bvh, t.WF → ∀ s ∈ t.leaves,
    t.bound.containsRect s.bounding_box
  | .mk lhs rhs bound shape => by
    intro hwf s hs
    cases shape with
    | some sh =>
      cases lhs with
      | some l => simp [Bvh.WF] at hwf
      | none =>
        cases rhs with
        | some r => simp [Bvh.WF] at hwf
        | none =>
          simp only [Bvh.WF] at hwf
          simp [Bvh.leaves] at hs
          subst hs
          rw [show (Bvh.mk none none bound (some s)).bound = bound from rfl, hwf]
          exact Rect.containsRect_refl _
    | none =>
      cases lhs with
      | none => simp [Bvh.WF] at hwf
      | some l =>
        cases rhs with
        | none => simp [Bvh.WF] at hwf
        | some r =>
          simp only [Bvh.WF] at hwf
          obtain ⟨hb, hwl, hwr⟩ := hwf
          simp [Bvh.leaves] at hs
          rw [show (Bvh.mk (some l) (some r) bound none).bound = bound from rfl,
            hb]
          rcases hs with hs | hs
          · exact Rect.containsRect_trans (unionRect_contains_left _ _)
              (WF_contains l hwl s hs)
          · exact Rect.containsRect_trans (unionRect_contains_right _ _)
              (WF_contains r hwr s hs)

/-- Every subtree of a well-formed tree is well-formed. -/
theorem WF_nodes : ∀ t : Bvh, t.WF → ∀ n ∈ t.nodes, n.WF
  | .mk lhs rhs bound shape => by
    intro hwf n hn
    rw [Bvh.nodes.eq_def] at hn
    simp only [List.mem_cons, List.mem_append] at hn
    rcases hn with rfl | hn
    · exact hwf
    · cases shape with
      | some sh =>
        cases lhs with
        | some l => simp [Bvh.WF] at hwf
        | none =>
          cases rhs with
          | some r => simp [Bvh.WF] at hwf
          | none => simp at hn
      | none =>
        cases lhs with
        | none => simp [Bvh.WF] at hwf
        | some l =>
          cases rhs with
          | none => simp [Bvh.WF] at hwf
          | some r =>
            simp only [Bvh.WF] at hwf
            obtain ⟨hb, hwl, hwr⟩ := hwf
            simp at hn
            rcases hn with hn | hn
            · exact WF_nodes l hwl n hn
            · exact WF_nodes r hwr n hn

/-- `construct` builds well-formed trees whose leaves are a permutation of
the input. -/
theorem construct_WF :
    ∀ (n : ℕ) (l : List Shape) (dim : ℕ) (t : Bvh), l.length ≤ n →
      Bvh.construct l dim = some t → t.WF ∧ t.leaves.Perm l := by
  intro n
  induction n with
  | zero =>
    intro l dim t hl h
    cases l with
    | nil => simp [Bvh.construct] at h
    | cons a tl => simp at hl
  | succ n ih =>
    intro l dim t hl h
    match l with
    | [] => simp [Bvh.construct] at h
    | [s] =>
      simp only [Bvh.construct] at h
      rw [Option.some_inj] at h
      subst h
      refine ⟨rfl, ?_⟩
      simp [Bvh.leaves, Bvh.new]
    | s0 :: s1 :: rest =>
      simp only [Bvh.construct] at h
      set sorted := sortShapes dim (s0 :: s1 :: rest) with hsorted
      set k := (s0 :: s1 :: rest).length / 2 with hk
      match ha : Bvh.construct (sorted.take k) (dim + 1),
            hb : Bvh.construct (sorted.drop k) (dim + 1) with
      | none, _ => rw [ha] at h; simp at h
      | some a, none => rw [ha, hb] at h; simp at h
      | some a, some b =>
        rw [ha, hb] at h
        simp only [Option.some_inj] at h
        subst h
        have hlen : sorted.length = rest.length + 2 := by
          simp only [hsorted, sortShapes, List.length_insertionSort,
            List.length_cons]
        have hwa := ih (sorted.take k) (dim + 1) a
          (by simp [List.length_take, hlen, hk]; simp at hl; omega) ha
        have hwb := ih (sorted.drop k) (dim + 1) b
          (by simp [List.length_drop, hlen, hk]; simp at hl; omega) hb
        constructor
        · rw [from_child_eq]
          exact ⟨rfl, hwa.1, hwb.1⟩
        · rw [from_child_eq]
          have hleq : (Bvh.mk (some a) (some b) (unionRect a.bound b.bound)
              none).leaves = a.leaves ++ b.leaves := by
            simp [Bvh.leaves]
          rw [hleq]
          have h1 : (a.leaves ++ b.leaves).Perm (sorted.take k ++ sorted.drop k) :=
            hwa.2.append hwb.2
          rw [List.take_append_drop] at h1
          refine h1.trans ?_
          rw [hsorted]
          simp only [sortShapes]
          exact List.perm_insertionSort _ _

theorem WF_shape_leaf : ∀ n : Bvh, n.WF → ∀ s, n.shape = some s →
    n.lhs = none ∧ n.rhs = none ∧ n.bound = s.bounding_box
  | .mk lhs rhs bound shape => by
    intro hwf s hsh
    simp only [Bvh.shape] at hsh
    subst hsh
    cases lhs with
    | some l => simp [Bvh.WF] at hwf
    | none =>
      cases rhs with
      | some r => simp [Bvh.WF] at hwf
      | none =>
        simp only [Bvh.WF] at hwf
        exact ⟨rfl, rfl, hwf⟩

theorem WF_shape_inner : ∀ n : Bvh, n.WF → n.shape = none →
    ∃ a b, n.lhs = some a ∧ n.rhs = some b ∧
      n.bound = unionRect a.bound b.bound
  | .mk lhs rhs bound shape => by
    intro hwf hsh
    simp only [Bvh.shape] at hsh
    subst hsh
    cases lhs with
    | none => simp [Bvh.WF] at hwf
    | some l =>
      cases rhs with
      | none => simp [Bvh.WF] at hwf
      | some r =>
        simp only [Bvh.WF] at hwf
        exact ⟨l, r, rfl, rfl, hwf.1⟩

/-- Claim C2: every tree `construct` returns satisfies the BVH invariants:
a node with a shape is a leaf (no children) whose bound is the shape's
bounding box; a node without a shape has exactly two children and the
componentwise union of their bounds; every node's bound contains the
bounding box of every shape in its subtree; and the leaves carry exactly the
input shapes (as a permutation, i.e. each input shape appears in exactly one
leaf, counted with multiplicity). -/
theorem bvh_invariants (l : List Shape) (dim : ℕ) (t : Bvh)
    (h : Bvh.construct l dim = some t) :
    (∀ n ∈ t.nodes, ∀ s, n.shape = some s →
        n.lhs = none ∧ n.rhs = none ∧ n.bound = s.bounding_box) ∧
    (∀ n ∈ t.nodes, n.shape = none →
        ∃ a b, n.lhs = some a ∧ n.rhs = some b ∧
          n.bound = unionRect a.bound b.bound) ∧
    (∀ n ∈ t.nodes, ∀ s ∈ n.leaves, n.bound.containsRect s.bounding_box) ∧
    t.leaves.Perm l := by
  obtain ⟨hwf, hperm⟩ := construct_WF l.length l dim t le_rfl h
  exact ⟨fun n hn s hsh => WF_shape_leaf n (WF_nodes t hwf n hn) s hsh,
    fun n hn hsh => WF_shape_inner n (WF_nodes t hwf n hn) hsh,
    fun n hn s hs => WF_contains n (WF_nodes t hwf n hn) s hs,
    hperm⟩

/-- Concrete two-sphere scene (shared by several witnesses and
counterexamples). -/
def sphA : Sphere := ⟨⟨2, 2, 0⟩, 1, matW⟩

def sphB : Sphere := ⟨⟨8, 0, 0⟩, 2, matW⟩

def sceneAB : List Shape := [.sphere sphA, .sphere sphB]

def leafA : Bvh := Bvh.new (Shape.bounding_box (.sphere sphA)) (.sphere sphA)

def leafB : Bvh := Bvh.new (Shape.bounding_box (.sphere sphB)) (.sphere sphB)

def tAB : Bvh := Bvh.from_child leafA leafB

theorem construct_sceneAB : Bvh.construct sceneAB 0 = some tAB := by
  have hsort : sortShapes 0 sceneAB = sceneAB := by
    simp only [sortShapes, sceneAB, List.insertionSort, List.orderedInsert]
    rw [if_pos]
    norm_num [sortKey, Shape.position, sphA, sphB]
  rw [show sceneAB = [Shape.sphere sphA, Shape.sphere sphB] from rfl]
  simp only [Bvh.construct]
  rw [show sortShapes 0 [Shape.sphere sphA, Shape.sphere sphB]
      = [Shape.sphere sphA, Shape.sphere sphB] from hsort]
  norm_num [List.take, List.drop]
  rw [show Bvh.construct [Shape.sphere sphA] 1 = some leafA by
      simp only [Bvh.construct, leafA],
    show Bvh.construct [Shape.sphere sphB] 1 = some leafB by
      simp only [Bvh.construct, leafB]]
  rfl

/-- Witness for C2 at the concrete two-sphere scene. -/
theorem bvh_invariants_witness :
    Bvh.construct sceneAB 0 = some tAB ∧ tAB.leaves.Perm sceneAB :=
  ⟨construct_sceneAB,
   (bvh_invariants sceneAB 0 tAB construct_sceneAB).2.2.2⟩

end

end Rt

namespace Rt

noncomputable section

/-! ### The brute-force fold (`main::intersection`) as a left-biased nearest
combination -/

/-- Squared distance of a hit to the ray origin (the `min_by` key). -/
def hdist (ray : Ray) (i : Inter) : ℝ := i.point.distance_squared ray.start

/-- Left-biased nearest-of-two (the first minimal element wins ties, as in
`Iterator::min_by`). -/
def combineNearest (ray : Ray) : Option Inter → Option Inter → Option Inter
  | none, b => b
  | some a, none => some a
  | some a, some b => if hdist ray b < hdist ray a then some b else some a

theorem selectNearest_eq (ray : Ray) (acc : Option Inter) (i : Inter) :
    selectNearest ray acc i = combineNearest ray acc (some i) := by
  cases acc <;> simp [selectNearest, combineNearest, hdist]

theorem combineNearest_none_right (ray : Ray) (p : Option Inter) :
    combineNearest ray p none = p := by
  cases p <;> simp [combineNearest]

theorem combineNearest_assoc (ray : Ray) (p q r : Option Inter) :
    combineNearest ray (combineNearest ray p q) r
      = combineNearest ray p (combineNearest ray q r) := by
  rcases p with _ | a
  · rfl
  rcases q with _ | b
  · simp [combineNearest]
  rcases r with _ | c
  · simp [combineNearest_none_right]
  by_cases h1 : hdist ray b < hdist ray a <;>
    by_cases h2 : hdist ray c < hdist ray b <;>
    simp [combineNearest, h1, h2] <;>
    first
      | (split_ifs <;> first | rfl | (exfalso; linarith))
      | (intro h; exfalso; linarith)

theorem foldl_selectNearest (ray : Ray) :
    ∀ (li : List Inter) (acc : Option Inter),
      li.foldl (selectNearest ray) acc
        = combineNearest ray acc (li.foldl (selectNearest ray) none) := by
  intro li
  induction li with
  | nil =>
    intro acc
    simp [combineNearest_none_right]
  | cons x li ih =>
    intro acc
    simp only [List.foldl_cons]
    rw [ih (selectNearest ray acc x), ih (selectNearest ray none x)]
    rw [selectNearest_eq, selectNearest_eq]
    rw [combineNearest_assoc]
    simp [combineNearest]

theorem intersection_append (l1 l2 : List Shape) (ray : Ray) :
    intersection (l1 ++ l2) ray
      = combineNearest ray (intersection l1 ray) (intersection l2 ray) := by
  unfold intersection
  rw [List.filterMap_append, List.foldl_append, foldl_selectNearest]

theorem foldl_isSome (ray : Ray) :
    ∀ (li : List Inter) (a : Inter),
      (li.foldl (selectNearest ray) (some a)).isSome := by
  intro li
  induction li with
  | nil => intro a; rfl
  | cons x li ih =>
    intro a
    simp only [List.foldl_cons, selectNearest]
    split_ifs <;> exact ih _

theorem intersection_eq_none_iff (l : List Shape) (ray : Ray) :
    intersection l ray = none ↔ ∀ s ∈ l, s.ray_intersection ray = none := by
  unfold intersection
  constructor
  · intro h s hs
    by_contra hne
    obtain ⟨i, hi⟩ := Option.ne_none_iff_exists.mp hne
    have hmem : i ∈ (l.filterMap (fun s => s.ray_intersection ray)) :=
      List.mem_filterMap.mpr ⟨s, hs, hi.symm⟩
    obtain ⟨li1, li2, hsplit⟩ := List.append_of_mem hmem
    rw [hsplit, List.foldl_append] at h
    simp only [List.foldl_cons] at h
    rcases e : (selectNearest ray (List.foldl (selectNearest ray) none li1) i)
      with _ | a
    · rcases e2 : List.foldl (selectNearest ray) none li1 with _ | b <;>
        rw [e2] at e <;> simp only [selectNearest] at e <;>
        first
          | exact Option.noConfusion e
          | (split_ifs at e <;> simp at e)
    · rw [e] at h
      have := foldl_isSome ray li2 a
      rw [h] at this
      simp at this
  · intro h
    have : l.filterMap (fun s => s.ray_intersection ray) = [] := by
      rw [List.filterMap_eq_nil]
      intro s hs
      exact h s hs
    rw [this]
    rfl

theorem foldl_mem (ray : Ray) :
    ∀ (li : List Inter) (acc : Option Inter) (i : Inter),
      li.foldl (selectNearest ray) acc = some i → acc = some i ∨ i ∈ li := by
  intro li
  induction li with
  | nil =>
    intro acc i h
    exact Or.inl h
  | cons x li ih =>
    intro acc i h
    simp only [List.foldl_cons] at h
    rcases ih _ _ h with hacc | hmem
    · cases acc with
      | none =>
        simp only [selectNearest] at hacc
        rw [Option.some_inj] at hacc
        exact Or.inr (by simp [hacc.symm])
      | some a =>
        simp only [selectNearest] at hacc
        split_ifs at hacc <;> rw [Option.some_inj] at hacc
        · exact Or.inr (by simp [hacc.symm])
        · exact Or.inl (by rw [hacc])
    · exact Or.inr (List.mem_cons_of_mem _ hmem)

theorem intersection_mem {l : List Shape} {ray : Ray} {i : Inter}
    (h : intersection l ray = some i) :
    ∃ s ∈ l, s.ray_intersection ray = some i := by
  unfold intersection at h
  rcases foldl_mem ray _ none i h with hacc | hmem
  · simp at hacc
  · exact List.mem_filterMap.mp hmem

theorem foldl_min (ray : Ray) :
    ∀ (li : List Inter) (acc : Option Inter) (i : Inter),
      li.foldl (selectNearest ray) acc = some i →
      (∀ j ∈ li, hdist ray i ≤ hdist ray j) ∧
      (∀ a, acc = some a → hdist ray i ≤ hdist ray a) := by
  intro li
  induction li with
  | nil =>
    intro acc i h
    refine ⟨by simp, fun a ha => ?_⟩
    rw [ha] at h
    simp only [List.foldl_nil, Option.some_inj] at h
    rw [h]
  | cons x li ih =>
    intro acc i h
    simp only [List.foldl_cons] at h
    obtain ⟨h1, h2⟩ := ih _ _ h
    have hx : hdist ray i ≤ hdist ray x := by
      cases acc with
      | none => exact h2 x rfl
      | some a =>
        simp only [selectNearest] at h2
        split_ifs at h2 with hc
        · exact h2 x rfl
        · exact le_trans (h2 a rfl) (not_lt.mp hc)
    refine ⟨fun j hj => ?_, fun a ha => ?_⟩
    · rcases List.mem_cons.mp hj with rfl | hj
      · exact hx
      · exact h1 j hj
    · subst ha
      simp only [selectNearest] at h2
      split_ifs at h2 with hc
      · exact le_trans (h2 x rfl) (le_of_lt hc)
      · exact h2 a rfl

theorem intersection_min {l : List Shape} {ray : Ray} {i : Inter}
    (h : intersection l ray = some i) :
    ∀ s ∈ l, ∀ j, s.ray_intersection ray = some j →
      hdist ray i ≤ hdist ray j := by
  intro s hs j hj
  unfold intersection at h
  exact (foldl_min ray _ none i h).1 j (List.mem_filterMap.mpr ⟨s, hs, hj⟩)

/-- No two distinct shapes in the list produce hits at exactly equal squared
distance (ties between equal records are allowed). -/
def NoTies (l : List Shape) (ray : Ray) : Prop :=
  ∀ s1 ∈ l, ∀ s2 ∈ l, ∀ i1 i2, s1.ray_intersection ray = some i1 →
    s2.ray_intersection ray = some i2 →
    hdist ray i1 = hdist ray i2 → i1 = i2

theorem NoTies.mono {l l2 : List Shape} {ray : Ray} (h : NoTies l ray)
    (hsub : ∀ s ∈ l2, s ∈ l) : NoTies l2 ray :=
  fun s1 h1 s2 h2 i1 i2 e1 e2 he => h s1 (hsub s1 h1) s2 (hsub s2 h2) i1 i2 e1 e2 he

theorem intersection_char {l : List Shape} {ray : Ray} {i : Inter}
    (hnt : NoTies l ray) (hmem : ∃ s ∈ l, s.ray_intersection ray = some i)
    (hmin : ∀ s ∈ l, ∀ j, s.ray_intersection ray = some j →
      hdist ray i ≤ hdist ray j) :
    intersection l ray = some i := by
  obtain ⟨s, hs, he⟩ := hmem
  rcases e : intersection l ray with _ | i2
  · rw [intersection_eq_none_iff] at e
    rw [e s hs] at he
    exact Option.noConfusion he
  · obtain ⟨s2, hs2, he2⟩ := intersection_mem e
    have d1 := intersection_min e s hs i he
    have d2 := hmin s2 hs2 i2 he2
    have : i = i2 := hnt s hs s2 hs2 i i2 he he2 (le_antisymm d2 d1)
    rw [this]

theorem intersection_perm {l l2 : List Shape} {ray : Ray} (h : l.Perm l2)
    (hnt : NoTies l ray) : intersection l ray = intersection l2 ray := by
  rcases e : intersection l ray with _ | i
  · rw [intersection_eq_none_iff] at e
    symm
    rw [intersection_eq_none_iff]
    intro s hs
    exact e s (h.mem_iff.mpr hs)
  · symm
    apply intersection_char (hnt.mono fun s hs => h.mem_iff.mpr hs)
    · obtain ⟨s, hs, he⟩ := intersection_mem e
      exact ⟨s, h.mem_iff.mp hs, he⟩
    · intro s hs j hj
      exact intersection_min e s (h.mem_iff.mpr hs) j hj

end

end Rt

namespace Rt

noncomputable section

theorem mul_ninf_fin_pos {x : ℝ} (h : 0 < x) :
    (FltN.ninf).mul (.fin x) = .ninf := by
  simp only [FltN.mul]
  rw [if_pos h]

theorem mul_ninf_fin_neg {x : ℝ} (h : x < 0) :
    (FltN.ninf).mul (.fin x) = .pinf := by
  simp only [FltN.mul]
  rw [if_neg (by linarith), if_pos h]

theorem mul_pinf_fin_pos {x : ℝ} (h : 0 < x) :
    (FltN.pinf).mul (.fin x) = .pinf := by
  simp only [FltN.mul]
  rw [if_pos h]

theorem mul_pinf_fin_neg {x : ℝ} (h : x < 0) :
    (FltN.pinf).mul (.fin x) = .ninf := by
  simp only [FltN.mul]
  rw [if_neg (by linarith), if_pos h]

/-- One slab axis with a nonzero direction component: the computed interval
is NaN-free, of the right shape, and brackets any `u` whose point lies in the
axis slab. -/
theorem axis_sound (bmin bmax : Flt) (s d u : ℝ) (hd : d ≠ 0)
    (h1 : bmin.Le (.fin (s + d * u))) (h2 : Flt.Le (.fin (s + d * u)) bmax) :
    ((((bmin.subR s).mul (frecip d)).minR ((bmax.subR s).mul (frecip d)))
        = .ninf ∨
      ∃ x, (((bmin.subR s).mul (frecip d)).minR
        ((bmax.subR s).mul (frecip d))) = .fin x) ∧
    ((((bmin.subR s).mul (frecip d)).maxR ((bmax.subR s).mul (frecip d)))
        = .pinf ∨
      ∃ x, (((bmin.subR s).mul (frecip d)).maxR
        ((bmax.subR s).mul (frecip d))) = .fin x) ∧
    ((((bmin.subR s).mul (frecip d)).minR
        ((bmax.subR s).mul (frecip d))).Le (.fin u)) ∧
    ((FltN.fin u).Le (((bmin.subR s).mul (frecip d)).maxR
        ((bmax.subR s).mul (frecip d)))) := by
  rw [frecip_ne d hd]
  have k1 : d⁻¹ * (d * u) = u := by field_simp
  rcases lt_or_gt_of_ne hd with hneg | hpos
  · have hinv : d⁻¹ < 0 := inv_lt_zero.mpr hneg
    cases bmin with
    | pinf => exact absurd h1 (by simp [Flt.Le])
    | ninf =>
      have e1 : ((Flt.ninf.subR s).mul (FltN.fin d⁻¹)) = FltN.pinf := by
        rw [show Flt.ninf.subR s = FltN.ninf from rfl, mul_ninf_fin_neg hinv]
      cases bmax with
      | ninf => exact absurd h2 (by simp [Flt.Le])
      | pinf =>
        have e2 : ((Flt.pinf.subR s).mul (FltN.fin d⁻¹)) = FltN.ninf := by
          rw [show Flt.pinf.subR s = FltN.pinf from rfl, mul_pinf_fin_neg hinv]
        rw [e1, e2]
        exact ⟨Or.inl (by first | rfl | trivial), Or.inl (by first | rfl | trivial), by simp [FltN.minR, FltN.Le],
          by simp [FltN.maxR, FltN.Le]⟩
      | fin b =>
        simp only [Flt.Le] at h2
        have e2 : (((Flt.fin b).subR s).mul (FltN.fin d⁻¹))
            = FltN.fin ((b - s) * d⁻¹) := rfl
        rw [e1, e2]
        simp only [FltN.minR, FltN.maxR]
        refine ⟨Or.inr ⟨_, rfl⟩, Or.inl (by first | rfl | trivial), ?_, by simp [FltN.Le]⟩
        simp only [FltN.Le]
        nlinarith [mul_le_mul_of_nonpos_left (by linarith : d * u ≤ b - s)
          (le_of_lt hinv), k1]
    | fin a =>
      simp only [Flt.Le] at h1
      have e1 : (((Flt.fin a).subR s).mul (FltN.fin d⁻¹))
          = FltN.fin ((a - s) * d⁻¹) := rfl
      cases bmax with
      | ninf => exact absurd h2 (by simp [Flt.Le])
      | pinf =>
        have e2 : ((Flt.pinf.subR s).mul (FltN.fin d⁻¹)) = FltN.ninf := by
          rw [show Flt.pinf.subR s = FltN.pinf from rfl, mul_pinf_fin_neg hinv]
        rw [e1, e2]
        simp only [FltN.minR, FltN.maxR]
        refine ⟨Or.inl (by first | rfl | trivial), Or.inr ⟨_, rfl⟩, by simp [FltN.Le], ?_⟩
        simp only [FltN.Le]
        nlinarith [mul_le_mul_of_nonpos_left (by linarith : a - s ≤ d * u)
          (le_of_lt hinv), k1]
      | fin b =>
        simp only [Flt.Le] at h2
        have e2 : (((Flt.fin b).subR s).mul (FltN.fin d⁻¹))
            = FltN.fin ((b - s) * d⁻¹) := rfl
        rw [e1, e2]
        simp only [FltN.minR, FltN.maxR]
        refine ⟨Or.inr ⟨_, rfl⟩, Or.inr ⟨_, rfl⟩, ?_, ?_⟩ <;>
          simp only [FltN.Le]
        · refine min_le_of_right_le ?_
          nlinarith [mul_le_mul_of_nonpos_left (by linarith : d * u ≤ b - s)
            (le_of_lt hinv), k1]
        · refine le_max_of_le_left ?_
          nlinarith [mul_le_mul_of_nonpos_left (by linarith : a - s ≤ d * u)
            (le_of_lt hinv), k1]
  · have hinv : 0 < d⁻¹ := inv_pos.mpr hpos
    cases bmin with
    | pinf => exact absurd h1 (by simp [Flt.Le])
    | ninf =>
      have e1 : ((Flt.ninf.subR s).mul (FltN.fin d⁻¹)) = FltN.ninf := by
        rw [show Flt.ninf.subR s = FltN.ninf from rfl, mul_ninf_fin_pos hinv]
      cases bmax with
      | ninf => exact absurd h2 (by simp [Flt.Le])
      | pinf =>
        have e2 : ((Flt.pinf.subR s).mul (FltN.fin d⁻¹)) = FltN.pinf := by
          rw [show Flt.pinf.subR s = FltN.pinf from rfl, mul_pinf_fin_pos hinv]
        rw [e1, e2]
        exact ⟨Or.inl (by first | rfl | trivial), Or.inl (by first | rfl | trivial), by simp [FltN.minR, FltN.Le],
          by simp [FltN.maxR, FltN.Le]⟩
      | fin b =>
        simp only [Flt.Le] at h2
        have e2 : (((Flt.fin b).subR s).mul (FltN.fin d⁻¹))
            = FltN.fin ((b - s) * d⁻¹) := rfl
        rw [e1, e2]
        simp only [FltN.minR, FltN.maxR]
        refine ⟨Or.inl (by first | rfl | trivial), Or.inr ⟨_, rfl⟩, by simp [FltN.Le], ?_⟩
        simp only [FltN.Le]
        nlinarith [mul_le_mul_of_nonneg_left (by linarith : d * u ≤ b - s)
          (le_of_lt hinv), k1]
    | fin a =>
      simp only [Flt.Le] at h1
      have e1 : (((Flt.fin a).subR s).mul (FltN.fin d⁻¹))
          = FltN.fin ((a - s) * d⁻¹) := rfl
      cases bmax with
      | ninf => exact absurd h2 (by simp [Flt.Le])
      | pinf =>
        have e2 : ((Flt.pinf.subR s).mul (FltN.fin d⁻¹)) = FltN.pinf := by
          rw [show Flt.pinf.subR s = FltN.pinf from rfl, mul_pinf_fin_pos hinv]
        rw [e1, e2]
        simp only [FltN.minR, FltN.maxR]
        refine ⟨Or.inr ⟨_, rfl⟩, Or.inl (by first | rfl | trivial), ?_, by simp [FltN.Le]⟩
        simp only [FltN.Le]
        nlinarith [mul_le_mul_of_nonneg_left (by linarith : a - s ≤ d * u)
          (le_of_lt hinv), k1]
      | fin b =>
        simp only [Flt.Le] at h2
        have e2 : (((Flt.fin b).subR s).mul (FltN.fin d⁻¹))
            = FltN.fin ((b - s) * d⁻¹) := rfl
        rw [e1, e2]
        simp only [FltN.minR, FltN.maxR]
        refine ⟨Or.inr ⟨_, rfl⟩, Or.inr ⟨_, rfl⟩, ?_, ?_⟩ <;>
          simp only [FltN.Le]
        · refine min_le_of_left_le ?_
          nlinarith [mul_le_mul_of_nonneg_left (by linarith : a - s ≤ d * u)
            (le_of_lt hinv), k1]
        · refine le_max_of_le_right ?_
          nlinarith [mul_le_mul_of_nonneg_left (by linarith : d * u ≤ b - s)
            (le_of_lt hinv), k1]

/-- Slab-test soundness: with all direction components nonzero, any box
containing a point of the forward ray passes the implemented test. -/
theorem slab_of_containsPoint (r : Rect) (ray : Ray) (u : ℝ) (hu : 0 ≤ u)
    (hx : ray.dir.x ≠ 0) (hy : ray.dir.y ≠ 0) (hz : ray.dir.z ≠ 0)
    (hp : r.containsPoint (ray.start + ray.dir * u)) : r.intersectsRay ray := by
  obtain ⟨px1, px2, py1, py2, pz1, pz2⟩ := hp
  simp only [V3.add_x, V3.add_y, V3.add_z, V3.smul_x, V3.smul_y, V3.smul_z]
    at px1 px2 py1 py2 pz1 pz2
  have ax := axis_sound r.min.x r.max.x ray.start.x ray.dir.x u hx
    (by rw [show ray.start.x + ray.dir.x * u = ray.start.x + ray.dir.x * u
      from rfl]; exact (by rw [mul_comm] at px1 ⊢; exact px1))
    (by rw [mul_comm] at px2 ⊢; exact px2)
  have ay := axis_sound r.min.y r.max.y ray.start.y ray.dir.y u hy
    (by rw [mul_comm] at py1 ⊢; exact py1) (by rw [mul_comm] at py2 ⊢; exact py2)
  have az := axis_sound r.min.z r.max.z ray.start.z ray.dir.z u hz
    (by rw [mul_comm] at pz1 ⊢; exact pz1) (by rw [mul_comm] at pz2 ⊢; exact pz2)
  simp only [Rect.intersectsRay]
  rw [slab_combine _ _ _ _ _ _ ax.1 ay.1 az.1 ax.2.1 ay.2.1 az.2.1]
  exact ⟨u, hu, ⟨ax.2.2.1, ax.2.2.2⟩, ⟨ay.2.2.1, ay.2.2.2⟩,
    ⟨az.2.2.1, az.2.2.2⟩⟩

end

end Rt

namespace Rt

noncomputable section

theorem containsPoint_mono {outer inner : Rect} (hc : outer.containsRect inner)
    {p : V3} (hp : inner.containsPoint p) : outer.containsPoint p := by
  obtain ⟨x1, x2, y1, y2, z1, z2⟩ := hc
  obtain ⟨a1, a2, b1, b2, c1, c2⟩ := hp
  exact ⟨Flt.Le_trans x1 a1, Flt.Le_trans a2 x2, Flt.Le_trans y1 b1,
    Flt.Le_trans b2 y2, Flt.Le_trans z1 c1, Flt.Le_trans c2 z2⟩

theorem sphere_point_sq (sx sy sz dx dy dz px py pz r t : ℝ)
    (hunit : dx * dx + dy * dy + dz * dz = 1)
    (ht : t ^ 2 - 2 * ((px - sx) * dx + (py - sy) * dy + (pz - sz) * dz) * t
      + ((px - sx) ^ 2 + (py - sy) ^ 2 + (pz - sz) ^ 2) - r ^ 2 = 0) :
    (sx + dx * t - px) ^ 2 + (sy + dy * t - py) ^ 2 + (sz + dz * t - pz) ^ 2
      = r ^ 2 := by
  linear_combination t ^ 2 * hunit + ht

theorem sphere_box_bound {c r p : ℝ} (h : (p - c) ^ 2 ≤ r ^ 2) :
    Min.min (c - r) (c + r) ≤ p ∧ p ≤ Max.max (c + r) (c - r) := by
  constructor
  · rcases le_total 0 r with hr | hr
    · exact min_le_of_left_le (by nlinarith)
    · exact min_le_of_right_le (by nlinarith)
  · rcases le_total 0 r with hr | hr
    · exact le_max_of_le_left (by nlinarith)
    · exact le_max_of_le_right (by nlinarith)

theorem sphere_hit_in_bbox (s : Sphere) (ray : Ray) (i : Inter)
    (hunit : ray.dir.dot ray.dir = 1)
    (h : s.ray_intersection ray = some i) :
    ∃ u : ℝ, 0 ≤ u ∧ i.point = ray.start + ray.dir * u ∧
      (s.bounding_box).containsPoint i.point := by
  simp only [Sphere.ray_intersection] at h
  have hbox : ∀ t : ℝ, 0 ≤ t →
      (t ^ 2 - 2 * ((s.pos - ray.start).dot ray.dir) * t
        + ((s.pos - ray.start).dot (s.pos - ray.start))
        - s.radius ^ 2 = 0) →
      ∃ u : ℝ, 0 ≤ u ∧
        (ray.start + ray.dir * t : V3) = ray.start + ray.dir * u ∧
        (s.bounding_box).containsPoint (ray.start + ray.dir * t) := by
    intro t ht0 htq
    refine ⟨t, ht0, rfl, ?_⟩
    have hsq : ((ray.start.x + ray.dir.x * t) - s.pos.x) ^ 2 +
        ((ray.start.y + ray.dir.y * t) - s.pos.y) ^ 2 +
        ((ray.start.z + ray.dir.z * t) - s.pos.z) ^ 2 = s.radius ^ 2 := by
      apply sphere_point_sq
      · unfold V3.dot at hunit
        linarith [hunit]
      · unfold V3.dot at htq
        simp only [V3.sub_x, V3.sub_y, V3.sub_z] at htq
        linear_combination htq
    have q1 : ((ray.start.x + ray.dir.x * t) - s.pos.x) ^ 2 ≤ s.radius ^ 2 := by
      nlinarith [sq_nonneg ((ray.start.y + ray.dir.y * t) - s.pos.y), sq_nonneg ((ray.start.z + ray.dir.z * t) - s.pos.z)]
    have q2 : ((ray.start.y + ray.dir.y * t) - s.pos.y) ^ 2 ≤ s.radius ^ 2 := by
      nlinarith [sq_nonneg ((ray.start.x + ray.dir.x * t) - s.pos.x), sq_nonneg ((ray.start.z + ray.dir.z * t) - s.pos.z)]
    have q3 : ((ray.start.z + ray.dir.z * t) - s.pos.z) ^ 2 ≤ s.radius ^ 2 := by
      nlinarith [sq_nonneg ((ray.start.x + ray.dir.x * t) - s.pos.x), sq_nonneg ((ray.start.y + ray.dir.y * t) - s.pos.y)]
    have bx := @sphere_box_bound s.pos.x s.radius (ray.start.x + ray.dir.x * t) q1
    have bv := @sphere_box_bound s.pos.y s.radius (ray.start.y + ray.dir.y * t) q2
    have bz := @sphere_box_bound s.pos.z s.radius (ray.start.z + ray.dir.z * t) q3
    unfold Sphere.bounding_box Rect.order_components F3.ofV3 V3.splat
    exact ⟨bx.1, bx.2, bv.1, bv.2, bz.1, bz.2⟩
  have hd0 : ¬ ((s.pos - ray.start).dot ray.dir * (s.pos - ray.start).dot ray.dir -
      ((s.pos - ray.start).dot (s.pos - ray.start) - s.radius * s.radius) < 0) →
      Real.sqrt ((s.pos - ray.start).dot ray.dir * (s.pos - ray.start).dot ray.dir -
        ((s.pos - ray.start).dot (s.pos - ray.start) - s.radius * s.radius)) ^ 2
      = (s.pos - ray.start).dot ray.dir * (s.pos - ray.start).dot ray.dir -
        ((s.pos - ray.start).dot (s.pos - ray.start) - s.radius * s.radius) :=
    fun hnn => Real.sq_sqrt (not_lt.mp hnn)
  split_ifs at h with h1 h2 h3
  all_goals try exact Option.noConfusion h
  all_goals try (rw [Option.some_inj] at h; subst h)
  all_goals apply hbox
  all_goals first
    | exact not_lt.mp h3
    | exact not_lt.mp h2
    | linear_combination hd0 h1
end

end Rt

namespace Rt

noncomputable section

theorem plane_hit_in_bbox (p : Plane) (ray : Ray) (i : Inter)
    (hn : p.normal.dot p.normal = 1)
    (h : p.ray_intersection ray = some i) :
    ∃ u : ℝ, 0 ≤ u ∧ i.point = ray.start + ray.dir * u ∧
      (p.bounding_box).containsPoint i.point := by
  simp only [Plane.ray_intersection] at h
  split_ifs at h with hd ht
  all_goals try exact Option.noConfusion h
  rw [Option.some_inj] at h
  subst h
  refine ⟨_, ht, rfl, ?_⟩
  unfold Plane.bounding_box
  split_ifs with hy
  · have hy2 : p.normal.y ^ 2 = 1 := by
      rcases abs_eq (le_of_lt one_pos) |>.mp hy with h1 | h1 <;> rw [h1] <;> ring
    have hx0 : p.normal.x = 0 := by
      unfold V3.dot at hn
      nlinarith [sq_nonneg p.normal.x, sq_nonneg p.normal.z]
    have hz0 : p.normal.z = 0 := by
      unfold V3.dot at hn
      nlinarith [sq_nonneg p.normal.x, sq_nonneg p.normal.z]
    have hyne : p.normal.y ≠ 0 := by
      intro h0
      rw [h0] at hy2
      norm_num at hy2
    have hdy : ray.dir.y ≠ 0 := by
      intro h0
      apply hd
      unfold V3.dot
      rw [hx0, hz0, h0]
      ring
    have hpy : (ray.start + ray.dir *
        (p.normal.dot (p.pos - ray.start) / p.normal.dot ray.dir)).y = p.pos.y := by
      unfold V3.dot
      simp only [V3.add_y, V3.smul_y, V3.sub_x, V3.sub_y, V3.sub_z]
      rw [hx0, hz0]
      field_simp
      ring
    refine ⟨trivial, trivial, ?_, ?_, trivial, trivial⟩ <;>
      simp only [Flt.Le, hpy] <;> exact le_refl _
  · exact ⟨trivial, trivial, trivial, trivial, trivial, trivial⟩
end

end Rt

namespace Rt

noncomputable section

theorem convex3_min (p0x p1x p2x u v : ℝ)
    (hu0 : 0 ≤ u) (hv0 : 0 ≤ v) (huv : u + v ≤ 1) :
    Min.min p0x (Min.min p1x p2x) ≤ p0x + u * (p1x - p0x) + v * (p2x - p0x) ∧
    p0x + u * (p1x - p0x) + v * (p2x - p0x) ≤ Max.max p0x (Max.max p1x p2x) := by
  have hw : (0 : ℝ) ≤ 1 - u - v := by linarith
  have m0 : Min.min p0x (Min.min p1x p2x) ≤ p0x := min_le_left _ _
  have m1 : Min.min p0x (Min.min p1x p2x) ≤ p1x :=
    le_trans (min_le_right _ _) (min_le_left _ _)
  have m2 : Min.min p0x (Min.min p1x p2x) ≤ p2x :=
    le_trans (min_le_right _ _) (min_le_right _ _)
  have M0 : p0x ≤ Max.max p0x (Max.max p1x p2x) := le_max_left _ _
  have M1 : p1x ≤ Max.max p0x (Max.max p1x p2x) :=
    le_trans (le_max_left _ _) (le_max_right _ _)
  have M2 : p2x ≤ Max.max p0x (Max.max p1x p2x) :=
    le_trans (le_max_right _ _) (le_max_right _ _)
  constructor
  · nlinarith [mul_le_mul_of_nonneg_left m0 hw, mul_le_mul_of_nonneg_left m1 hu0,
      mul_le_mul_of_nonneg_left m2 hv0]
  · nlinarith [mul_le_mul_of_nonneg_left M0 hw, mul_le_mul_of_nonneg_left M1 hu0,
      mul_le_mul_of_nonneg_left M2 hv0]

theorem tri_point_in_bbox (tr : Triangle) (ray : Ray) (U V T : ℝ)
    (he1 : tr.edge1 = tr.p1.pos - tr.p0.pos)
    (he2 : tr.edge2 = tr.p2.pos - tr.p0.pos)
    (hA : ¬ tr.edge1.dot (ray.dir.cross tr.edge2) = 0)
    (hU : U = (tr.edge1.dot (ray.dir.cross tr.edge2))⁻¹ *
        ((ray.start - tr.p0.pos).dot (ray.dir.cross tr.edge2)))
    (hV : V = (tr.edge1.dot (ray.dir.cross tr.edge2))⁻¹ *
        (ray.dir.dot ((ray.start - tr.p0.pos).cross tr.edge1)))
    (hT : T = (tr.edge1.dot (ray.dir.cross tr.edge2))⁻¹ *
        (tr.edge2.dot ((ray.start - tr.p0.pos).cross tr.edge1)))
    (hu0 : 0 ≤ U) (hv0 : 0 ≤ V) (huv : U + V ≤ 1) :
    (tr.bounding_box).containsPoint (ray.start + ray.dir * T) := by
  have h0 : ¬ (tr.p1.pos - tr.p0.pos).dot
      (ray.dir.cross (tr.p2.pos - tr.p0.pos)) = 0 := by
    rw [he1, he2] at hA
    exact hA
  have hx : ray.start.x + ray.dir.x * T =
      tr.p0.pos.x + U * (tr.p1.pos.x - tr.p0.pos.x) + V * (tr.p2.pos.x - tr.p0.pos.x) := by
    rw [hU, hV, hT, he1, he2]
    unfold V3.dot V3.cross at h0 ⊢
    simp only [V3.sub_x, V3.sub_y, V3.sub_z] at h0 ⊢
    field_simp
    ring
  have hy : ray.start.y + ray.dir.y * T =
      tr.p0.pos.y + U * (tr.p1.pos.y - tr.p0.pos.y) + V * (tr.p2.pos.y - tr.p0.pos.y) := by
    rw [hU, hV, hT, he1, he2]
    unfold V3.dot V3.cross at h0 ⊢
    simp only [V3.sub_x, V3.sub_y, V3.sub_z] at h0 ⊢
    field_simp
    ring
  have hz : ray.start.z + ray.dir.z * T =
      tr.p0.pos.z + U * (tr.p1.pos.z - tr.p0.pos.z) + V * (tr.p2.pos.z - tr.p0.pos.z) := by
    rw [hU, hV, hT, he1, he2]
    unfold V3.dot V3.cross at h0 ⊢
    simp only [V3.sub_x, V3.sub_y, V3.sub_z] at h0 ⊢
    field_simp
    ring
  have bx := convex3_min tr.p0.pos.x tr.p1.pos.x tr.p2.pos.x U V hu0 hv0 huv
  have bv := convex3_min tr.p0.pos.y tr.p1.pos.y tr.p2.pos.y U V hu0 hv0 huv
  have bz := convex3_min tr.p0.pos.z tr.p1.pos.z tr.p2.pos.z U V hu0 hv0 huv
  unfold Triangle.bounding_box F3.ofV3
  refine ⟨?_, ?_, ?_, ?_, ?_, ?_⟩ <;>
    simp only [Flt.Le, V3.add_x, V3.add_y, V3.add_z, V3.smul_x, V3.smul_y, V3.smul_z]
  · rw [hx]; exact bx.1
  · rw [hx]; exact bx.2
  · rw [hy]; exact bv.1
  · rw [hy]; exact bv.2
  · rw [hz]; exact bz.1
  · rw [hz]; exact bz.2

theorem tri_hit_in_bbox (tr : Triangle) (ray : Ray) (i : Inter)
    (he1 : tr.edge1 = tr.p1.pos - tr.p0.pos)
    (he2 : tr.edge2 = tr.p2.pos - tr.p0.pos)
    (h : tr.ray_intersection ray = some i) :
    ∃ u : ℝ, 0 ≤ u ∧ i.point = ray.start + ray.dir * u ∧
      (tr.bounding_box).containsPoint i.point := by
  simp only [Triangle.ray_intersection] at h
  split_ifs at h with h1 h2 h3 h4 h5
  all_goals try exact Option.noConfusion h
  all_goals rw [Option.some_inj] at h
  all_goals subst h
  all_goals obtain ⟨hu0, hu1⟩ := h2
  all_goals rw [not_or, not_lt, not_lt] at h3
  all_goals first
    | exact ⟨_, le_of_lt h4, rfl,
        tri_point_in_bbox tr ray _ _ _ he1 he2 h1 rfl rfl rfl hu0 h3.1 h3.2⟩
    | exact ⟨_, le_of_lt h5, rfl,
        tri_point_in_bbox tr ray _ _ _ he1 he2 h1 rfl rfl rfl hu0 h3.1 h3.2⟩
end

end Rt

namespace Rt

noncomputable section

/-- Side conditions under which the shapes' quadratic or barycentric algebra
matches its geometry: the plane normal is unit, and the triangle's
precomputed edges agree with its vertices (`Triangle::precompute`). -/
def ShapeOK : Shape → Prop
  | .sphere _ => True
  | .plane p => p.normal.dot p.normal = 1
  | .tri t => t.edge1 = t.p1.pos - t.p0.pos ∧ t.edge2 = t.p2.pos - t.p0.pos

theorem hit_in_bbox (s : Shape) (ray : Ray) (i : Inter)
    (hunit : ray.dir.dot ray.dir = 1) (hok : ShapeOK s)
    (h : s.ray_intersection ray = some i) :
    ∃ u : ℝ, 0 ≤ u ∧ i.point = ray.start + ray.dir * u ∧
      (s.bounding_box).containsPoint i.point := by
  cases s with
  | sphere sp => exact sphere_hit_in_bbox sp ray i hunit h
  | plane p => exact plane_hit_in_bbox p ray i hok h
  | tri t => exact tri_hit_in_bbox t ray i hok.1 hok.2 h

theorem intersection_singleton (s : Shape) (ray : Ray) :
    intersection [s] ray = s.ray_intersection ray := by
  unfold intersection
  cases e : s.ray_intersection ray <;> simp [e, selectNearest]

theorem intersects_mk (lhs rhs : Option Bvh) (bound : Rect) (shape : Option Shape)
    (ray : Ray) :
    Bvh.intersects (.mk lhs rhs bound shape) ray =
      if bound.intersectsRay ray then
        match shape with
        | some s => s.ray_intersection ray
        | none =>
          match lhs, rhs with
          | some l, some r =>
            match l.intersects ray, r.intersects ray with
            | some left, some right =>
              if left.point.distance_squared ray.start <
                 right.point.distance_squared ray.start
              then some left else some right
            | some left, none => some left
            | none, right => right
          | _, _ => none
      else none := by rw [Bvh.intersects.eq_def]

theorem intersects_eq_brute : ∀ (t : Bvh) (ray : Ray),
    t.WF → ray.dir.dot ray.dir = 1 →
    ray.dir.x ≠ 0 → ray.dir.y ≠ 0 → ray.dir.z ≠ 0 →
    (∀ s ∈ t.leaves, ShapeOK s) → NoTies t.leaves ray →
    t.intersects ray = intersection t.leaves ray
  | .mk lhs rhs bound shape, ray => by
    intro hwf hunit hdx hdy hdz hok hnt
    by_cases hb : bound.intersectsRay ray
    · rw [intersects_mk, if_pos hb]
      cases shape with
      | some sh =>
        cases lhs with
        | some l => simp [Bvh.WF] at hwf
        | none =>
          cases rhs with
          | some r => simp [Bvh.WF] at hwf
          | none =>
            have : (Bvh.mk none none bound (some sh)).leaves = [sh] := by
              simp [Bvh.leaves]
            rw [this, intersection_singleton]
      | none =>
        cases lhs with
        | none => simp [Bvh.WF] at hwf
        | some l =>
          cases rhs with
          | none => simp [Bvh.WF] at hwf
          | some r =>
            simp only [Bvh.WF] at hwf
            obtain ⟨hbd, hwl, hwr⟩ := hwf
            have hlv : (Bvh.mk (some l) (some r) bound none).leaves
                = l.leaves ++ r.leaves := by
              simp [Bvh.leaves]
            have hmem : ∀ s, s ∈ l.leaves ∨ s ∈ r.leaves →
                s ∈ (Bvh.mk (some l) (some r) bound none).leaves := by
              intro s hs
              rw [hlv, List.mem_append]
              exact hs
            have ihl := intersects_eq_brute l ray hwl hunit hdx hdy hdz
              (fun s hs => hok s (hmem s (Or.inl hs)))
              (hnt.mono fun s hs => hmem s (Or.inl hs))
            have ihr := intersects_eq_brute r ray hwr hunit hdx hdy hdz
              (fun s hs => hok s (hmem s (Or.inr hs)))
              (hnt.mono fun s hs => hmem s (Or.inr hs))
            rw [hlv, intersection_append, ← ihl, ← ihr]
            change (match l.intersects ray, r.intersects ray with
                | some left, some right =>
                  if left.point.distance_squared ray.start <
                     right.point.distance_squared ray.start
                  then some left else some right
                | some left, none => some left
                | none, right => right)
              = combineNearest ray (l.intersects ray) (r.intersects ray)
            rcases el : l.intersects ray with _ | left <;>
              rcases er : r.intersects ray with _ | right
            · rfl
            · rfl
            · rfl
            · show (if left.point.distance_squared ray.start <
                      right.point.distance_squared ray.start
                    then some left else some right)
                = combineNearest ray (some left) (some right)
              simp only [combineNearest]
              split_ifs with c1 c2 c2
              · exfalso
                unfold hdist at c2
                linarith
              · rfl
              · rfl
              · have he : hdist ray left = hdist ray right := by
                  unfold hdist at c2 ⊢
                  linarith [not_lt.mp c1, not_lt.mp c2]
                obtain ⟨s1, hs1, he1⟩ := intersection_mem (ihl ▸ el)
                obtain ⟨s2, hs2, he2⟩ := intersection_mem (ihr ▸ er)
                rw [hnt s1 (hmem s1 (Or.inl hs1)) s2 (hmem s2 (Or.inr hs2))
                  left right he1 he2 he]
    · rw [intersects_mk, if_neg hb]
      symm
      rw [intersection_eq_none_iff]
      intro s hs
      by_contra hne
      obtain ⟨i, hi⟩ := Option.ne_none_iff_exists.mp hne
      obtain ⟨u, hu, hpt, hcont⟩ := hit_in_bbox s ray i hunit (hok s hs) hi.symm
      apply hb
      have hcr := WF_contains (.mk lhs rhs bound shape) hwf s hs
      rw [show (Bvh.mk lhs rhs bound shape).bound = bound from rfl] at hcr
      refine slab_of_containsPoint bound ray u hu hdx hdy hdz ?_
      rw [← hpt]
      exact containsPoint_mono hcr hcont
end

end Rt

namespace Rt

noncomputable section

theorem sqrt9 : Real.sqrt 9 = 3 := by
  rw [show (9 : ℝ) = 3 ^ 2 by norm_num, Real.sqrt_sq (by norm_num)]

theorem sqrt196 : Real.sqrt 196 = 14 := by
  rw [show (196 : ℝ) = 14 ^ 2 by norm_num, Real.sqrt_sq (by norm_num)]

theorem sqrt4 : Real.sqrt 4 = 2 := by
  rw [show (4 : ℝ) = 2 ^ 2 by norm_num, Real.sqrt_sq (by norm_num)]

theorem sqrt16 : Real.sqrt 16 = 4 := by
  rw [show (16 : ℝ) = 4 ^ 2 by norm_num, Real.sqrt_sq (by norm_num)]

def rayAB : Ray := ⟨⟨0, 0, 0⟩, ⟨2, 0, 0⟩⟩

theorem sphA_hit : Sphere.ray_intersection sphA rayAB
    = some ⟨⟨2, 0, 0⟩, ⟨0, -1, 0⟩, true, .sphere sphA⟩ := by
  simp only [Sphere.ray_intersection]
  have hb : V3.dot (sphA.pos - rayAB.start) rayAB.dir = 4 := by
    norm_num [sphA, rayAB, V3.dot]
  have hc : V3.dot (sphA.pos - rayAB.start) (sphA.pos - rayAB.start)
      - sphA.radius * sphA.radius = 7 := by
    norm_num [sphA, rayAB, V3.dot]
  rw [hb, hc, show (4 : ℝ) * 4 - 7 = 9 by norm_num, sqrt9]
  rw [if_neg (by norm_num), if_neg (by norm_num)]
  rw [if_neg (by norm_num [sphA, rayAB, V3.distance_squared, V3.dot, signum])]
  norm_num [sphA, rayAB, V3.normalize, V3.length, V3.dot, sqrt4]

theorem sphB_hit : Sphere.ray_intersection sphB rayAB
    = some ⟨⟨4, 0, 0⟩, ⟨-1, 0, 0⟩, true, .sphere sphB⟩ := by
  simp only [Sphere.ray_intersection]
  have hb : V3.dot (sphB.pos - rayAB.start) rayAB.dir = 16 := by
    norm_num [sphB, rayAB, V3.dot]
  have hc : V3.dot (sphB.pos - rayAB.start) (sphB.pos - rayAB.start)
      - sphB.radius * sphB.radius = 60 := by
    norm_num [sphB, rayAB, V3.dot]
  rw [hb, hc, show (16 : ℝ) * 16 - 60 = 196 by norm_num, sqrt196]
  rw [if_neg (by norm_num), if_neg (by norm_num)]
  rw [if_neg (by norm_num [sphB, rayAB, V3.distance_squared, V3.dot, signum])]
  norm_num [sphB, rayAB, V3.normalize, V3.length, V3.dot, sqrt16]

theorem leafA_miss : leafA.intersects rayAB = none := by
  simp only [Bvh.intersects, leafA, Bvh.new]
  rw [if_neg]
  norm_num [Sphere.bounding_box, Shape.bounding_box, Rect.order_components,
    Rect.intersectsRay, F3.ofV3, V3.splat, sphA, rayAB, matW, Flt.min, Flt.max,
    Flt.subR, frecip, FltN.mul, FltN.minR, FltN.maxR, FltN.Le]

theorem leafB_hit : leafB.intersects rayAB
    = some ⟨⟨4, 0, 0⟩, ⟨-1, 0, 0⟩, true, .sphere sphB⟩ := by
  simp only [Bvh.intersects, leafB, Bvh.new]
  rw [if_pos]
  · exact sphB_hit
  · norm_num [Sphere.bounding_box, Shape.bounding_box, Rect.order_components,
      Rect.intersectsRay, F3.ofV3, V3.splat, sphB, rayAB, matW, Flt.min, Flt.max,
      Flt.subR, frecip, FltN.mul, FltN.minR, FltN.maxR, FltN.Le]

theorem tAB_hit : tAB.intersects rayAB
    = some ⟨⟨4, 0, 0⟩, ⟨-1, 0, 0⟩, true, .sphere sphB⟩ := by
  rw [show tAB = Bvh.mk (some leafA) (some leafB)
    (unionRect leafA.bound leafB.bound) none from rfl]
  rw [intersects_mk]
  rw [if_pos]
  · show (match leafA.intersects rayAB, leafB.intersects rayAB with
        | some left, some right =>
          if left.point.distance_squared rayAB.start <
             right.point.distance_squared rayAB.start
          then some left else some right
        | some left, none => some left
        | none, right => right)
      = some ⟨⟨4, 0, 0⟩, ⟨-1, 0, 0⟩, true, .sphere sphB⟩
    rw [leafA_miss, leafB_hit]
  · norm_num [unionRect, Bvh.bound, leafA, leafB, Bvh.new, Sphere.bounding_box,
      Shape.bounding_box, Rect.order_components, Rect.intersectsRay, F3.ofV3,
      V3.splat, sphA, sphB, rayAB, matW, Flt.min, Flt.max, Flt.subR, frecip,
      FltN.mul, FltN.minR, FltN.maxR, FltN.Le]

theorem bruteAB : intersection sceneAB rayAB
    = some ⟨⟨2, 0, 0⟩, ⟨0, -1, 0⟩, true, .sphere sphA⟩ := by
  unfold intersection sceneAB
  rw [show List.filterMap (fun s => Shape.ray_intersection s rayAB)
        [Shape.sphere sphA, Shape.sphere sphB]
      = [⟨⟨2, 0, 0⟩, ⟨0, -1, 0⟩, true, .sphere sphA⟩,
         ⟨⟨4, 0, 0⟩, ⟨-1, 0, 0⟩, true, .sphere sphB⟩] from by
    simp [List.filterMap, Shape.ray_intersection, sphA_hit, sphB_hit]]
  simp only [List.foldl_cons, List.foldl_nil, selectNearest]
  rw [if_neg (by norm_num [V3.distance_squared, V3.dot, rayAB])]
end

end Rt

namespace Rt

noncomputable section

def sph1 : Sphere := ⟨⟨5, 5, 5⟩, 1, matW⟩

def scene1 : List Shape := [.sphere sph1]

def ray1 : Ray := ⟨⟨0, 0, 0⟩, ⟨2/3, 2/3, 1/3⟩⟩

def leaf1 : Bvh := Bvh.new (Shape.bounding_box (.sphere sph1)) (.sphere sph1)

theorem construct_scene1 : Bvh.construct scene1 0 = some leaf1 := by
  rw [scene1, Bvh.construct, leaf1]

/-- Claim C1 (amended): for a scene whose BVH `construct` succeeds, a ray with
an exactly unit direction all of whose components are nonzero, shapes whose
cached data is consistent (unit plane normals, triangle edges matching the
vertices as `precompute` sets them), and no two distinct shapes hit at exactly
equal squared distance, `Bvh::intersects` returns exactly the brute-force
nearest hit of `main::intersection`.  Without these provisos the claim is
false (`bvh_intersects_counterexample`): the quadratic/slab arithmetic assumes
a unit direction, and a zero direction component can NaN-prune a box that the
ray enters. -/
theorem bvh_intersects_eq_bruteforce (scene : List Shape) (t : Bvh) (ray : Ray)
    (hc : Bvh.construct scene 0 = some t)
    (hunit : ray.dir.dot ray.dir = 1)
    (hdx : ray.dir.x ≠ 0) (hdy : ray.dir.y ≠ 0) (hdz : ray.dir.z ≠ 0)
    (hok : ∀ s ∈ scene, ShapeOK s)
    (hnt : NoTies scene ray) :
    t.intersects ray = intersection scene ray := by
  obtain ⟨hwf, hperm⟩ := construct_WF scene.length scene 0 t le_rfl hc
  have hsub : ∀ s ∈ t.leaves, s ∈ scene := fun s hs => hperm.mem_iff.mp hs
  rw [intersects_eq_brute t ray hwf hunit hdx hdy hdz
    (fun s hs => hok s (hsub s hs)) (hnt.mono hsub)]
  exact intersection_perm hperm (hnt.mono hsub)

/-- Witness for the amended C1: a singleton scene and the unit ray direction
`(2/3, 2/3, 1/3)`. -/
theorem bvh_intersects_eq_bruteforce_witness :
    Bvh.construct scene1 0 = some leaf1 ∧
    ray1.dir.dot ray1.dir = 1 ∧
    leaf1.intersects ray1 = intersection scene1 ray1 := by
  have h1 : Bvh.construct scene1 0 = some leaf1 := construct_scene1
  have hu : ray1.dir.dot ray1.dir = 1 := by norm_num [ray1, V3.dot]
  refine ⟨h1, hu, bvh_intersects_eq_bruteforce scene1 leaf1 ray1 h1 hu
    (by norm_num [ray1]) (by norm_num [ray1]) (by norm_num [ray1]) ?_ ?_⟩
  · intro s hs
    simp only [scene1, List.mem_singleton] at hs
    subst hs
    trivial
  · intro s1 hs1 s2 hs2 i1 i2 e1 e2 he
    simp only [scene1, List.mem_singleton] at hs1 hs2
    subst hs1
    subst hs2
    rw [e1] at e2
    exact Option.some_inj.mp e2

/-- Counterexample to C1 as stated: for the two-sphere scene `sceneAB` and the
non-unit axis ray `rayAB = (0, (2,0,0))`, the BVH built by `construct` returns
sphere B's (bogus, quadratic-with-non-unit-direction) hit at `(4,0,0)` while
the brute-force scan returns sphere A's hit at `(2,0,0)`: sphere A's box is
slab-pruned even though A's own quadratic reports the nearer hit. -/
theorem bvh_intersects_counterexample :
    Bvh.construct sceneAB 0 = some tAB ∧
    tAB.intersects rayAB ≠ intersection sceneAB rayAB := by
  refine ⟨construct_sceneAB, ?_⟩
  rw [tAB_hit, bruteAB]
  intro h
  have := congrArg (fun o => (Option.map (fun i : Inter => i.point.x) o)) h
  norm_num at this
/-- Witness for C5: the concrete outside-the-sphere axis ray hitting sphere A
front-on. -/
theorem sphere_front_flag_witness :
    Sphere.ray_intersection sphA rayAB
        = some ⟨⟨2, 0, 0⟩, ⟨0, -1, 0⟩, true, .sphere sphA⟩ ∧
    ((Inter.mk ⟨2, 0, 0⟩ ⟨0, -1, 0⟩ true (.sphere sphA)).front = true ↔
      ¬(sphA.pos.distance_squared rayAB.start * signum sphA.radius ≤
        sphA.radius * sphA.radius * signum sphA.radius)) :=
  ⟨sphA_hit, (sphere_front_flag sphA rayAB _ sphA_hit).1⟩

end

end Rt
